import Mathlib

/-!
# DynamicFusion: `definations.h`

A shallow embedding of the numerical core in
`src/algorithm/DynamicFusion/definations.h`: the camera intrinsics `Intr`,
the TSDF voxel codecs `pack_tsdf` / `unpack_tsdf` and the manual trilinear
sampler `read_tsdf_texture_value_trilinear`.

Conventions of the embedding.

* `float` is modelled by the exact rationals `ℚ`; arithmetic is exact.  Rounding
  is explicit in two places: the conversions to and from half precision of the
  half-precision codec, and the single-precision product of the `short2`
  `pack_tsdf`, given as a second definition next to the exact one.
* `int` is modelled by `ℤ`.  The only machine-integer conversions whose range
  matters are the `float → short` conversions of the `short2` codec, which are
  modelled with an explicit 16-bit wrap.
* A texture is a function from integer voxel indices to stored voxels.
-/

namespace dfusion

/-! ## Vector types -/

/-- CUDA `float2`. -/
structure float2 where
  x : ℚ
  y : ℚ
  deriving DecidableEq

/-- CUDA `float3`. -/
structure float3 where
  x : ℚ
  y : ℚ
  z : ℚ
  deriving DecidableEq

/-- CUDA `short2`; the fields hold the two's-complement values of the channels. -/
structure short2 where
  x : ℤ
  y : ℤ
  deriving DecidableEq

/-- CUDA `make_float2`. -/
def make_float2 (x y : ℚ) : float2 := ⟨x, y⟩

/-- CUDA `make_float3`. -/
def make_float3 (x y z : ℚ) : float3 := ⟨x, y, z⟩

/-! ## Camera intrinsics (`class Intr`, lines 78-121) -/

/-- The six data members of `class Intr`. -/
structure Intr where
  fx : ℚ
  fy : ℚ
  cx : ℚ
  cy : ℚ
  fx_inv : ℚ
  fy_inv : ℚ
  deriving DecidableEq

namespace Intr

/-- The four-argument constructor `Intr(fx_, fy_, cx_, cy_)` (lines 84-88):
the inverses are computed as `1.f / fx` and `1.f / fy`. -/
def mk4 (fx_ fy_ cx_ cy_ : ℚ) : Intr :=
  { fx := fx_, fy := fy_, cx := cx_, cy := cy_, fx_inv := 1 / fx_, fy_inv := 1 / fy_ }

/-- The method `uvd2xyz(float u, float v, float d)` (lines 96-102). -/
def uvd2xyz (K : Intr) (u v d : ℚ) : float3 :=
  let x := d * (u - K.cx) * K.fx_inv
  let y := -d * (v - K.cy) * K.fy_inv
  let z := -d
  make_float3 x y z

/-- The overload `uvd2xyz(float3 uvd)` (lines 104-107). -/
def uvd2xyz3 (K : Intr) (uvd : float3) : float3 :=
  K.uvd2xyz uvd.x uvd.y uvd.z

/-- The method `xyz2uvd(float x, float y, float z)` (lines 109-115). -/
def xyz2uvd (K : Intr) (x y z : ℚ) : float3 :=
  let d := -z
  let u := x * K.fx / d + K.cx
  let v := -y * K.fy / d + K.cy
  make_float3 u v d

/-- The overload `xyz2uvd(float3 xyz)` (lines 117-120). -/
def xyz2uvd3 (K : Intr) (xyz : float3) : float3 :=
  K.xyz2uvd xyz.x xyz.y xyz.z

end Intr

/-! ## TSDF codecs (lines 128-167)

Exactly one of the three encodings is selected by the preprocessor; each is
embedded in a namespace of its own.  The half-precision encoding
(`USE_HALF_TSDF_VOLUME`), built from the CUDA intrinsics `__floats2half2_rn` /
`__half22float2`, follows further down; the sampler is parametric in the voxel
type and in `unpack_tsdf`. -/

namespace FloatTsdf

/-- The voxel type `typedef float2 TsdfData` of `USE_FLOAT_TSDF_VOLUME`. -/
abbrev TsdfData := float2

/-- The `float2` version of `pack_tsdf` (lines 130-133). -/
def pack_tsdf (v w : ℚ) : TsdfData :=
  make_float2 v w

/-- The `float2` version of `unpack_tsdf` (lines 134-137); the casts
`float(td.x)`, `float(td.y)` are conversions from `float` to `float`. -/
def unpack_tsdf (td : TsdfData) : float2 :=
  make_float2 td.x td.y

end FloatTsdf

/-- C++ conversion of a floating value to an integer type: the fractional part
is discarded, that is, the value is truncated toward zero. -/
def truncToZero (q : ℚ) : ℤ :=
  if 0 ≤ q then ⌊q⌋ else ⌈q⌉

/-- Reduction of an integer into the range of a signed 16-bit `short`
(two's complement). -/
def wrap16 (n : ℤ) : ℤ :=
  (n + 32768) % 65536 - 32768

/-- Implicit conversion `float → short` at a call of `make_short2`:
truncation toward zero, followed by the 16-bit wrap for values that do not fit
(C++ leaves that case undefined). -/
def float2short (q : ℚ) : ℤ :=
  wrap16 (truncToZero q)

/-- CUDA `make_short2`. -/
def make_short2 (x y : ℤ) : short2 := ⟨x, y⟩

namespace ShortTsdf

/-- The voxel type `typedef short2 TsdfData` of `USE_SHORT_TSDF_VOLUME`. -/
abbrev TsdfData := short2

/-- The preprocessor constant `TSDF_DIVISOR`, `0x7fff`. -/
def TSDF_DIVISOR : ℤ := 0x7fff

/-- The preprocessor constant `TSDF_INV_DIVISOR`.  The source literal `3.051850947599719e-05f`
is the single-precision value of `1 / 32767`; in exact arithmetic it stands
for `1 / TSDF_DIVISOR`. -/
def TSDF_INV_DIVISOR : ℚ := 1 / 32767

/-- The `short2` version of `pack_tsdf` (lines 144-147):
`make_short2(v*TSDF_DIVISOR, w)`, both arguments converted to `short`. -/
def pack_tsdf (v w : ℚ) : TsdfData :=
  make_short2 (float2short (v * (TSDF_DIVISOR : ℚ))) (float2short w)

/-- The `short2` version of `unpack_tsdf` (lines 148-151). -/
def unpack_tsdf (td : TsdfData) : float2 :=
  make_float2 ((td.x : ℚ) * TSDF_INV_DIVISOR) (td.y : ℚ)

end ShortTsdf

/-! ## Trilinear sampler (lines 170-226) -/

/-- The function `sgn` (lines 171-174): `(0.0f < val) - (val < 0.0f)`. -/
def sgn (val : ℚ) : ℤ :=
  (if 0 < val then 1 else 0) - (if val < 0 then 1 else 0)

/-- CUDA intrinsic `__float2int_rd`: conversion to `int` rounding down, toward
negative infinity. -/
def float2int_rd (x : ℚ) : ℤ :=
  ⌊x⌋

/-- The function `read_tsdf_texture` (lines 175-187).  The texture `t` is a
function of integer voxel indices; `tex3D` is an unfiltered fetch of the voxel
whose cell contains the coordinate. -/
def read_tsdf_texture {α : Type} (t : ℤ → ℤ → ℤ → α) (x y z : ℚ) : α :=
  t ⌊x⌋ ⌊y⌋ ⌊z⌋

/-- Lines 194 and 197 (the same on the other two axes, lines 195-196 and
198-199): `int x0 = __float2int_rd(x); x0 += -(sgn(x0 - x) + 1) >> 1;`.
Unary minus binds tighter than `>>`, and `>>` on a negative `int` is the
arithmetic shift. -/
def lower_corner (x : ℚ) : ℤ :=
  let x0 := float2int_rd x
  x0 + ((-(sgn ((x0 : ℚ) - x) + 1)) >>> 1)

/-- The manual branch (`#else`, lines 194-224) of
`read_tsdf_texture_value_trilinear`, for a voxel type `α` decoded by
`unpack_tsdf`. -/
def read_tsdf_texture_value_trilinear {α : Type} (unpack_tsdf : α → float2)
    (t : ℤ → ℤ → ℤ → α) (x y z : ℚ) : ℚ :=
  let x0 := lower_corner x
  let y0 := lower_corner y
  let z0 := lower_corner z
  let a0 := x - (x0 : ℚ)
  let b0 := y - (y0 : ℚ)
  let c0 := z - (z0 : ℚ)
  let a1 := 1 - a0
  let b1 := 1 - b0
  let c1 := 1 - c0
  (
      (
      (unpack_tsdf (read_tsdf_texture t ((x0 + 0 : ℤ) : ℚ) ((y0 + 0 : ℤ) : ℚ) ((z0 + 0 : ℤ) : ℚ))).x * c1 +
      (unpack_tsdf (read_tsdf_texture t ((x0 + 0 : ℤ) : ℚ) ((y0 + 0 : ℤ) : ℚ) ((z0 + 1 : ℤ) : ℚ))).x * c0
      ) * b1 + (
      (unpack_tsdf (read_tsdf_texture t ((x0 + 0 : ℤ) : ℚ) ((y0 + 1 : ℤ) : ℚ) ((z0 + 0 : ℤ) : ℚ))).x * c1 +
      (unpack_tsdf (read_tsdf_texture t ((x0 + 0 : ℤ) : ℚ) ((y0 + 1 : ℤ) : ℚ) ((z0 + 1 : ℤ) : ℚ))).x * c0
      ) * b0
    ) * a1
    + (
      (
      (unpack_tsdf (read_tsdf_texture t ((x0 + 1 : ℤ) : ℚ) ((y0 + 0 : ℤ) : ℚ) ((z0 + 0 : ℤ) : ℚ))).x * c1 +
      (unpack_tsdf (read_tsdf_texture t ((x0 + 1 : ℤ) : ℚ) ((y0 + 0 : ℤ) : ℚ) ((z0 + 1 : ℤ) : ℚ))).x * c0
      ) * b1 + (
      (unpack_tsdf (read_tsdf_texture t ((x0 + 1 : ℤ) : ℚ) ((y0 + 1 : ℤ) : ℚ) ((z0 + 0 : ℤ) : ℚ))).x * c1 +
      (unpack_tsdf (read_tsdf_texture t ((x0 + 1 : ℤ) : ℚ) ((y0 + 1 : ℤ) : ℚ) ((z0 + 1 : ℤ) : ℚ))).x * c0
      ) * b0
    ) * a0

/-! ## Corner weights

The sampler is linear in the eight corner distances.  `corner_sum wt` is the
flat sum over the eight corners of distance times the product of three
per-axis weights, for a per-axis weight rule `wt`. -/

/-- Offset of a corner index from the lower corner: `0` for the low index,
`1` for the high index. -/
def corner_offset (high : Bool) : ℤ :=
  if high then 1 else 0

/-- Per-axis weight used by the code: the complement `1 - frac` (`a1`, `b1`,
`c1`) on the low index and the fraction `frac` (`a0`, `b0`, `c0`) on the high
index. -/
def axis_weight (high : Bool) (frac : ℚ) : ℚ :=
  if high then frac else 1 - frac

/-- Per-axis weight as the specification words it: the fraction `frac` on the
low index and the complement `1 - frac` on the high index. -/
def spec_axis_weight (high : Bool) (frac : ℚ) : ℚ :=
  if high then 1 - frac else frac

/-- Flat weighted sum over the eight corners around `(x, y, z)` of the
distance channel, each corner weighted by the product of its three per-axis
weights under the rule `wt`. -/
def corner_sum {α : Type} (wt : Bool → ℚ → ℚ) (unpack_tsdf : α → float2)
    (t : ℤ → ℤ → ℤ → α) (x y z : ℚ) : ℚ :=
  let x0 := lower_corner x
  let y0 := lower_corner y
  let z0 := lower_corner z
  let a0 := x - (x0 : ℚ)
  let b0 := y - (y0 : ℚ)
  let c0 := z - (z0 : ℚ)
  (([false, true].map fun dx =>
    ([false, true].map fun dy =>
      ([false, true].map fun dz =>
        (unpack_tsdf (t (x0 + corner_offset dx) (y0 + corner_offset dy)
            (z0 + corner_offset dz))).x
          * (wt dx a0 * wt dy b0 * wt dz c0)).sum).sum).sum)

/-- A `float2`-valued test texture: distance `1` at the voxel `(i, j, k)` and
`0` elsewhere, weight `0`. -/
def indicator_grid (i j k : ℤ) : ℤ → ℤ → ℤ → float2 :=
  fun x y z => if x = i ∧ y = j ∧ z = k then ⟨1, 0⟩ else ⟨0, 0⟩

/-- A `float2`-valued test texture whose distance depends on the x index only:
`1` at index `0`, `3` at index `1`, and `0` elsewhere. -/
def ramp_grid : ℤ → ℤ → ℤ → float2 :=
  fun x _ _ => if x = 0 then ⟨1, 0⟩ else if x = 1 then ⟨3, 0⟩ else ⟨0, 0⟩

/-! ## Pyramid levels (`Intr::operator()`, lines 90-94) -/

/-- Reduction of an integer into the range of a signed 32-bit `int`
(two's complement). -/
def wrap32 (n : ℤ) : ℤ :=
  (n + 2147483648) % 4294967296 - 2147483648

/-- The `int` expression `1 << level_index`.  A shift count outside `0 .. 31`
has no defined result in C++ (`none`); inside that range the result is
`2 ^ level_index` reduced to 32 bits, so that `1 << 31` is `INT_MIN`. -/
def shl_one (level_index : ℤ) : Option ℤ :=
  if 0 ≤ level_index ∧ level_index < 32 then some (wrap32 (2 ^ level_index.toNat)) else none

/-- The call operator `Intr::operator()(int level_index)` (lines 90-94):
`int div = 1 << level_index; return Intr(fx / div, fy / div, cx / div, cy / div);`. -/
def Intr.operator_call (K : Intr) (level_index : ℤ) : Option Intr :=
  match shl_one level_index with
  | some div => some (Intr.mk4 (K.fx / (div : ℚ)) (K.fy / (div : ℚ)) (K.cx / (div : ℚ))
      (K.cy / (div : ℚ)))
  | none => none

/-! ## Warp nodes (`struct WarpNode`, lines 47-74)

`to_dual_quat` and `from_dual_quat` are in the source; the dual-quaternion
library `dualquaternion/dual_quat_cu.hpp` they call is not.  The library is
taken as the interface the specification describes. -/

namespace Tbx

/-- Modelled from the spec: the vector type `Tbx::Vec3` of the absent
dual-quaternion library, three `float` components. -/
structure Vec3 where
  x : ℚ
  y : ℚ
  z : ℚ
  deriving DecidableEq

/-- Modelled from the spec: `Vec3::operator*=(float)` of the absent library,
used in `r *= angle` ("re-scale axis by angle"). -/
def Vec3.scale (v : Vec3) (s : ℚ) : Vec3 :=
  ⟨v.x * s, v.y * s, v.z * s⟩

/-- Modelled from the spec: `Vec3::operator/=(float)` of the absent library,
used in `a /= theta` ("axis = r / theta"). -/
def Vec3.unscale (v : Vec3) (s : ℚ) : Vec3 :=
  ⟨v.x / s, v.y / s, v.z / s⟩

/-- Modelled from the spec: the operations the absent dual-quaternion library
`dualquaternion/dual_quat_cu.hpp` must supply (specification, section 6 and
section 3), over a quaternion type `Q` and a dual-quaternion type `DQ`:
the vector norm (`theta = |r|`), an identity quaternion constructor
(`Quat_cu()`), quaternion construction from axis-angle (`Quat_cu(axis, angle)`),
dual-quaternion construction from a rotation quaternion and a translation
vector (`Dual_quat_cu(q, t)`), `rotation()`, `translation()`, and angle-axis
extraction (`to_angleAxis(axis, angle)`, which receives the current values of
its two reference arguments and returns the new ones). -/
structure Lib (Q DQ : Type) where
  norm : Vec3 → ℚ
  quat_identity : Q
  quat_axis_angle : Vec3 → ℚ → Q
  dual_quat : Q → Vec3 → DQ
  rotation : DQ → Q
  translation : DQ → Vec3
  to_angleAxis : Q → Vec3 → ℚ → Vec3 × ℚ

/-- Modelled from the spec: what the specification says of the operations of
the absent library that the zero-rotation round trip relies on.  The norm of
the zero vector is zero; a dual quaternion formed from a rotation quaternion
and a translation gives both back through `rotation()` and `translation()`;
the angle-axis extraction of the identity quaternion has angle zero (the axis
is left unspecified, since "the axis is undefined when the angle is zero"). -/
structure Lib.Lawful {Q DQ : Type} (lib : Lib Q DQ) : Prop where
  norm_zero : lib.norm ⟨0, 0, 0⟩ = 0
  rotation_dual_quat : ∀ q t, lib.rotation (lib.dual_quat q t) = q
  translation_dual_quat : ∀ q t, lib.translation (lib.dual_quat q t) = t
  angle_identity : ∀ axis angle, (lib.to_angleAxis lib.quat_identity axis angle).2 = 0

/-- Modelled from the spec: a rotation quaternion of a small rational instance
of the library, scalar part `w` and vector part `(i, j, k)`. -/
structure RatQuat where
  w : ℚ
  i : ℚ
  j : ℚ
  k : ℚ
  deriving DecidableEq

/-- Modelled from the spec: a dual quaternion of the rational instance, kept
as the rotation quaternion and the translation it is formed from. -/
structure RatDualQuat where
  rot : RatQuat
  trans : Vec3
  deriving DecidableEq

/-- Square root to six decimals, the rational stand-in for `sqrtf`. -/
def approx_sqrt (q : ℚ) : ℚ :=
  (Nat.sqrt (⌊q * 1000000000000⌋.toNat) : ℚ) / 1000000

/-- Fifth-order series of the sine, the rational stand-in for `sinf`. -/
def approx_sin (a : ℚ) : ℚ :=
  a - a ^ 3 / 6 + a ^ 5 / 120

/-- Fourth-order series of the cosine, the rational stand-in for `cosf`. -/
def approx_cos (a : ℚ) : ℚ :=
  1 - a ^ 2 / 2 + a ^ 4 / 24

/-- Fifth-order series of the arc sine, the rational stand-in for `asinf`. -/
def approx_asin (a : ℚ) : ℚ :=
  a + a ^ 3 / 6 + 3 * a ^ 5 / 40

/-- Modelled from the spec: a rational instance of the absent library.  The
quaternion of axis-angle is `(cos (angle/2), axis * sin (angle/2))`; the
angle-axis extraction returns the normalised vector part and twice the arc
sine of its length, and for a zero vector part (the identity) angle `0` with
the axis argument left as it was. -/
def ratLib : Lib RatQuat RatDualQuat where
  norm := fun v => approx_sqrt (v.x * v.x + v.y * v.y + v.z * v.z)
  quat_identity := ⟨1, 0, 0, 0⟩
  quat_axis_angle := fun axis angle =>
    ⟨approx_cos (angle / 2), axis.x * approx_sin (angle / 2),
      axis.y * approx_sin (angle / 2), axis.z * approx_sin (angle / 2)⟩
  dual_quat := fun q t => ⟨q, t⟩
  rotation := fun dq => dq.rot
  translation := fun dq => dq.trans
  to_angleAxis := fun q axis _ =>
    let n := approx_sqrt (q.i * q.i + q.j * q.j + q.k * q.k)
    if n = 0 then (axis, 0) else (⟨q.i / n, q.j / n, q.k / n⟩, 2 * approx_asin n)

end Tbx

/-- The two data members of `struct WarpNode` (lines 49-50). -/
structure WarpNode where
  r : Tbx.Vec3
  t : Tbx.Vec3
  deriving DecidableEq

/-- The method `WarpNode::to_dual_quat` (lines 51-66). -/
def WarpNode.to_dual_quat {Q DQ : Type} (lib : Tbx.Lib Q DQ) (n : WarpNode) : DQ :=
  let a : Tbx.Vec3 := ⟨n.r.x, n.r.y, n.r.z⟩
  let theta := lib.norm a
  if theta = 0 then
    let q := lib.quat_identity
    lib.dual_quat q n.t
  else
    let a := a.unscale theta
    let q := lib.quat_axis_angle a theta
    lib.dual_quat q n.t

/-- The method `WarpNode::from_dual_quat` (lines 67-73), returning the node
after the call. -/
def WarpNode.from_dual_quat {Q DQ : Type} (lib : Tbx.Lib Q DQ) (n : WarpNode) (dq : DQ) :
    WarpNode :=
  let angle : ℚ := 0
  let ra := lib.to_angleAxis (lib.rotation dq) n.r angle
  let r := ra.1.scale ra.2
  { r := r, t := lib.translation dq }

/-! ## Resource-id registry (line 291) -/

/-- Modelled from the spec: `is_cuda_pbo_vbo_id_used_push_new`, of which
`definations.h` has only the declaration (line 291); the body is absent.
Specification, section 4.5: "checks whether `id` is already present in the
process-wide set; if absent, inserts it and returns `false`; if present,
returns `true`".  The process-wide set is passed in and returned. -/
def is_cuda_pbo_vbo_id_used_push_new (used : List ℕ) (rid : ℕ) : Bool × List ℕ :=
  if rid ∈ used then (true, used) else (false, rid :: used)

/-- Modelled from the spec: the process-wide set after a sequence of calls of
`is_cuda_pbo_vbo_id_used_push_new`, starting from the set `used`. -/
def registry_run (used : List ℕ) (calls : List ℕ) : List ℕ :=
  calls.foldl (fun s rid => (is_cuda_pbo_vbo_id_used_push_new s rid).2) used

/-! ## Other blending orders and the eight corners -/

/-- The blend of the same eight corner distances with the same per-axis
weights as `read_tsdf_texture_value_trilinear`, taken along x first, then y,
then z. -/
def trilinear_x_then_y_then_z {α : Type} (unpack_tsdf : α → float2)
    (t : ℤ → ℤ → ℤ → α) (x y z : ℚ) : ℚ :=
  let x0 := lower_corner x
  let y0 := lower_corner y
  let z0 := lower_corner z
  let a0 := x - (x0 : ℚ)
  let b0 := y - (y0 : ℚ)
  let c0 := z - (z0 : ℚ)
  let a1 := 1 - a0
  let b1 := 1 - b0
  let c1 := 1 - c0
  (((unpack_tsdf (t (x0 + 0) (y0 + 0) (z0 + 0))).x * a1
      + (unpack_tsdf (t (x0 + 1) (y0 + 0) (z0 + 0))).x * a0) * b1
    + ((unpack_tsdf (t (x0 + 0) (y0 + 1) (z0 + 0))).x * a1
      + (unpack_tsdf (t (x0 + 1) (y0 + 1) (z0 + 0))).x * a0) * b0) * c1
  + (((unpack_tsdf (t (x0 + 0) (y0 + 0) (z0 + 1))).x * a1
      + (unpack_tsdf (t (x0 + 1) (y0 + 0) (z0 + 1))).x * a0) * b1
    + ((unpack_tsdf (t (x0 + 0) (y0 + 1) (z0 + 1))).x * a1
      + (unpack_tsdf (t (x0 + 1) (y0 + 1) (z0 + 1))).x * a0) * b0) * c0

/-- The eight corners, as (high on x, high on y, high on z). -/
def corners : List (Bool × Bool × Bool) :=
  [(false, false, false), (false, false, true), (false, true, false), (false, true, true),
    (true, false, false), (true, false, true), (true, true, false), (true, true, true)]

/-- The weight the sampler gives the corner `c` around `(x, y, z)`: the
product of its three per-axis weights. -/
def corner_weight (x y z : ℚ) (c : Bool × Bool × Bool) : ℚ :=
  axis_weight c.1 (x - (lower_corner x : ℚ)) * axis_weight c.2.1 (y - (lower_corner y : ℚ))
    * axis_weight c.2.2 (z - (lower_corner z : ℚ))

/-- The unpacked distance of the voxel at the corner `c` around `(x, y, z)`. -/
def corner_distance {α : Type} (unpack_tsdf : α → float2) (t : ℤ → ℤ → ℤ → α)
    (x y z : ℚ) (c : Bool × Bool × Bool) : ℚ :=
  (unpack_tsdf (t (lower_corner x + corner_offset c.1) (lower_corner y + corner_offset c.2.1)
    (lower_corner z + corner_offset c.2.2))).x

/-- The minimum of the eight corner distances around `(x, y, z)`. -/
def corner_min {α : Type} (unpack_tsdf : α → float2) (t : ℤ → ℤ → ℤ → α) (x y z : ℚ) : ℚ :=
  (corners.map (corner_distance unpack_tsdf t x y z)).foldr min
    (corner_distance unpack_tsdf t x y z (false, false, false))

/-- The maximum of the eight corner distances around `(x, y, z)`. -/
def corner_max {α : Type} (unpack_tsdf : α → float2) (t : ℤ → ℤ → ℤ → α) (x y z : ℚ) : ℚ :=
  (corners.map (corner_distance unpack_tsdf t x y z)).foldr max
    (corner_distance unpack_tsdf t x y z (false, false, false))

/-! ## Half-precision codec (`USE_HALF_TSDF_VOLUME`, lines 153-167)

The encoding active in the build.  A `half` is held as its 16-bit pattern
(sign, 5 exponent bits, 10 fraction bits), a `half2` as two such patterns, and
`TsdfData` (`int`) as the 32-bit two's-complement value of the two patterns
side by side.  The conversions are those of IEEE 754 binary16; infinities and
NaN (exponent field `31`) have no rational value, and no theorem reaches
them. -/

/-- Rounding to the nearest integer, ties to the even one (the IEEE 754 mode
`rn`, round-to-nearest-even). -/
def round_ties_even (x : ℚ) : ℤ :=
  let f := ⌊x⌋
  let r := x - (f : ℚ)
  if r < 1 / 2 then f else if 1 / 2 < r then f + 1 else if f % 2 = 0 then f else f + 1

/-- CUDA `half2`: the 16-bit patterns of its two halves, `x` the low one. -/
structure half2 where
  x : ℤ
  y : ℤ
  deriving DecidableEq

namespace HalfTsdf

/-- The voxel type `typedef int TsdfData` of `USE_HALF_TSDF_VOLUME`. -/
abbrev TsdfData := ℤ

/-- The binary exponent a magnitude is rounded at: `floor (log2 a)`, and
`-14`, the exponent of the subnormals, below the normal range. -/
def half_exponent (a : ℚ) : ℤ :=
  if a < 2 ^ (-14 : ℤ) then -14 else Int.log 2 a

/-- CUDA `__float2half_rn`, one half of `__floats2half2_rn`: conversion to
half precision in round-to-nearest-even mode, as a 16-bit pattern.  The
magnitude is rounded to 11 significant bits (10 fraction bits at exponent
`-14` for subnormals); exponent field and fraction are `(e + 14) * 1024 + m`,
a carry of the rounding moves to the next exponent, and what reaches the
exponent field `31` is infinity, `0x7C00`. -/
def float2half_rn (q : ℚ) : ℤ :=
  let a := |q|
  let e := half_exponent a
  let m := round_ties_even (a * 2 ^ (10 - e))
  let mag := min ((e + 14) * 1024 + m) 31744
  (if q < 0 then 32768 else 0) + mag

/-- CUDA `__half2float`, one half of `__half22float2`: the value of a 16-bit
pattern, `M * 2^-24` for the exponent field `0` and `(1024 + M) * 2^(E - 25)`
otherwise. -/
def half2float (h : ℤ) : ℚ :=
  let s := h / 32768 % 2
  let E := h / 1024 % 32
  let M := h % 1024
  let mag : ℚ := if E = 0 then (M : ℚ) * 2 ^ (-24 : ℤ) else (1024 + (M : ℚ)) * 2 ^ (E - 25)
  if s = 1 then -mag else mag

/-- CUDA `__floats2half2_rn(a, b)`: `a` in the low half, `b` in the high half. -/
def floats2half2_rn (a b : ℚ) : half2 :=
  ⟨float2half_rn a, float2half_rn b⟩

/-- CUDA `__half22float2`. -/
def half22float2 (h : half2) : float2 :=
  make_float2 (half2float h.x) (half2float h.y)

/-- The cast `*((int*)&val)` (line 160): the 32 bits of a `half2` read as an
`int`, low half in the low 16 bits. -/
def half2_as_int (h : half2) : ℤ :=
  wrap32 (h.x + 65536 * h.y)

/-- The cast `*((half2*)&td)` (line 164): the 32 bits of an `int` read as a
`half2`. -/
def int_as_half2 (td : ℤ) : half2 :=
  ⟨td % 4294967296 % 65536, td % 4294967296 / 65536⟩

/-- The half-precision version of `pack_tsdf` (lines 157-161). -/
def pack_tsdf (v w : ℚ) : TsdfData :=
  let val := floats2half2_rn v w
  half2_as_int val

/-- The half-precision version of `unpack_tsdf` (lines 162-165). -/
def unpack_tsdf (td : TsdfData) : float2 :=
  half22float2 (int_as_half2 td)

end HalfTsdf

/-! ## Single-precision rounding of the product in the `short2` `pack_tsdf`

The definitions above take `float` arithmetic as exact.  The one place where
the rounding of a `float` operation changes an integer result is the product
`v*TSDF_DIVISOR` of line 146, which is converted to `short` right after; the
definitions below make that rounding explicit. -/

/-- IEEE 754 binary32 rounding of a rational, round-to-nearest-even: 24
significant bits, 23 fraction bits at exponent `-126` for subnormals.
Overflow to infinity (magnitudes from `2^128` on) has no rational value and is
not modelled. -/
def binary32_round (q : ℚ) : ℚ :=
  let a := |q|
  let e := if a < 2 ^ (-126 : ℤ) then -126 else Int.log 2 a
  let m := round_ties_even (a * 2 ^ (23 - e))
  let mag : ℚ := (m : ℚ) * 2 ^ (e - 23)
  if q < 0 then -mag else mag

/-- The `short2` version of `pack_tsdf` (lines 144-147) with the `float`
product `v*TSDF_DIVISOR` rounded to single precision before the conversion to
`short`; `TSDF_DIVISOR` itself converts to `float` exactly. -/
def ShortTsdf.pack_tsdf_binary32 (v w : ℚ) : ShortTsdf.TsdfData :=
  make_short2 (float2short (binary32_round (v * (ShortTsdf.TSDF_DIVISOR : ℚ)))) (float2short w)

/-! ## Auxiliary facts -/

/-- The arithmetic shifts that occur in the sign-test correction. -/
theorem shift_correction_values :
    ((-((-1 : ℤ) + 1)) >>> 1 = 0) ∧ ((-((0 : ℤ) + 1)) >>> 1 = -1) ∧
      ((-((1 : ℤ) + 1)) >>> 1 = -1) := by
  decide

/-- The value of `sgn` at zero. -/
theorem sgn_zero : sgn 0 = 0 := by
  simp [sgn]

/-- The value of `sgn` at a negative argument. -/
theorem sgn_of_neg {v : ℚ} (h : v < 0) : sgn v = -1 := by
  have h' : ¬ (0 < v) := not_lt.mpr h.le
  simp [sgn, h, h']

/-- The value of `sgn` at a positive argument. -/
theorem sgn_of_pos {v : ℚ} (h : 0 < v) : sgn v = 1 := by
  have h' : ¬ (v < 0) := not_lt.mpr h.le
  simp [sgn, h, h']

/-- At a coordinate that is an integer the correction fires: the corner is one
below the coordinate. -/
theorem lower_corner_intCast (n : ℤ) : lower_corner (n : ℚ) = n - 1 := by
  have h1 : (-((0 : ℤ) + 1)) >>> 1 = -1 := by decide
  simp only [lower_corner, float2int_rd, Int.floor_intCast, sub_self, sgn_zero, h1]
  ring

/-- At a coordinate that is not an integer the correction does not fire: the
corner is the floor. -/
theorem lower_corner_of_floor_lt {x : ℚ} (h : (⌊x⌋ : ℚ) < x) : lower_corner x = ⌊x⌋ := by
  have h0 : (-((-1 : ℤ) + 1)) >>> 1 = 0 := by decide
  have hs : sgn ((⌊x⌋ : ℚ) - x) = -1 := sgn_of_neg (sub_neg.mpr h)
  simp only [lower_corner, float2int_rd, hs, h0, add_zero]

/-- Closed form of the corner on every coordinate: one below the ceiling. -/
theorem lower_corner_eq_ceil_sub_one (x : ℚ) : lower_corner x = ⌈x⌉ - 1 := by
  rcases (Int.floor_le x).lt_or_eq with h | h
  · rw [lower_corner_of_floor_lt h]
    have hc : ⌈x⌉ = ⌊x⌋ + 1 := by
      rw [Int.ceil_eq_iff]
      constructor
      · simpa using h
      · push_cast
        exact (Int.lt_floor_add_one x).le
    omega
  · have hx : x = ((⌊x⌋ : ℤ) : ℚ) := h.symm
    rw [hx, lower_corner_intCast, Int.ceil_intCast]

/-- The fractional offset `a0` lies in `(0, 1]` on every coordinate. -/
theorem lower_corner_offset_bounds (x : ℚ) :
    0 < x - (lower_corner x : ℚ) ∧ x - (lower_corner x : ℚ) ≤ 1 := by
  rw [lower_corner_eq_ceil_sub_one]
  have h1 := Int.ceil_lt_add_one x
  have h2 := Int.le_ceil x
  push_cast
  constructor <;> linarith

/-- The texture fetch at integer coordinates reads the voxel with those
indices. -/
theorem read_tsdf_texture_intCast {α : Type} (t : ℤ → ℤ → ℤ → α) (i j k : ℤ) :
    read_tsdf_texture t (i : ℚ) (j : ℚ) (k : ℚ) = t i j k := by
  simp [read_tsdf_texture]

/-- The sampler written over the distance channel `D` of the grid, blending
along z, then y, then x as the source does. -/
theorem read_tsdf_texture_value_trilinear_unfold {α : Type} (unpack_tsdf : α → float2)
    (t : ℤ → ℤ → ℤ → α) (x y z : ℚ) :
    read_tsdf_texture_value_trilinear unpack_tsdf t x y z =
      (((unpack_tsdf (t (lower_corner x) (lower_corner y) (lower_corner z))).x
            * (1 - (z - lower_corner z))
          + (unpack_tsdf (t (lower_corner x) (lower_corner y) (lower_corner z + 1))).x
            * (z - lower_corner z)) * (1 - (y - lower_corner y))
        + ((unpack_tsdf (t (lower_corner x) (lower_corner y + 1) (lower_corner z))).x
            * (1 - (z - lower_corner z))
          + (unpack_tsdf (t (lower_corner x) (lower_corner y + 1) (lower_corner z + 1))).x
            * (z - lower_corner z)) * (y - lower_corner y)) * (1 - (x - lower_corner x))
      + (((unpack_tsdf (t (lower_corner x + 1) (lower_corner y) (lower_corner z))).x
            * (1 - (z - lower_corner z))
          + (unpack_tsdf (t (lower_corner x + 1) (lower_corner y) (lower_corner z + 1))).x
            * (z - lower_corner z)) * (1 - (y - lower_corner y))
        + ((unpack_tsdf (t (lower_corner x + 1) (lower_corner y + 1) (lower_corner z))).x
            * (1 - (z - lower_corner z))
          + (unpack_tsdf (t (lower_corner x + 1) (lower_corner y + 1) (lower_corner z + 1))).x
            * (z - lower_corner z)) * (y - lower_corner y)) * (x - lower_corner x) := by
  simp only [read_tsdf_texture_value_trilinear, read_tsdf_texture_intCast, add_zero]

/-- One-axis blend at `i + f` with `0 ≤ f ≤ 1`: the two voxels the sampler
reads and the weights it gives them amount to `(1 - f) * g i + f * g (i + 1)`,
whether or not the correction fires. -/
theorem axis_blend (g : ℤ → ℚ) (i : ℤ) (f : ℚ) (h0 : 0 ≤ f) (h1 : f ≤ 1) :
    g (lower_corner (i + f)) * (1 - ((i + f) - lower_corner (i + f)))
        + g (lower_corner (i + f) + 1) * ((i + f) - lower_corner (i + f))
      = (1 - f) * g i + f * g (i + 1) := by
  rcases h0.lt_or_eq with hpos | hzero
  · have hc : ⌈(i : ℚ) + f⌉ = i + 1 := by
      rw [Int.ceil_eq_iff]
      push_cast
      constructor <;> linarith
    have hl : lower_corner ((i : ℚ) + f) = i := by
      rw [lower_corner_eq_ceil_sub_one, hc]
      ring
    rw [hl]
    ring
  · subst hzero
    have hl : lower_corner ((i : ℚ) + 0) = i - 1 := by
      rw [add_zero, lower_corner_intCast]
    rw [hl]
    have e : i - 1 + 1 = i := by ring
    rw [e]
    push_cast
    ring

/-- One-axis blend at an integer coordinate: only the voxel at that index
contributes. -/
theorem axis_blend_intCast (g : ℤ → ℚ) (i : ℤ) :
    g (lower_corner (i : ℚ)) * (1 - ((i : ℚ) - lower_corner (i : ℚ)))
        + g (lower_corner (i : ℚ) + 1) * ((i : ℚ) - lower_corner (i : ℚ))
      = g i := by
  have h := axis_blend g i 0 le_rfl zero_le_one
  simpa using h

/-- The corner at `1/4` is `0`. -/
theorem lower_corner_one_quarter : lower_corner (1 / 4) = 0 := by
  have hc : ⌈(1 / 4 : ℚ)⌉ = 1 := by
    rw [Int.ceil_eq_iff]
    norm_num
  rw [lower_corner_eq_ceil_sub_one, hc]
  rfl

/-- The corner at `1/2` is `0`. -/
theorem lower_corner_one_half : lower_corner (1 / 2) = 0 := by
  have hc : ⌈(1 / 2 : ℚ)⌉ = 1 := by
    rw [Int.ceil_eq_iff]
    norm_num
  rw [lower_corner_eq_ceil_sub_one, hc]
  rfl

/-- The sampler is the flat sum over the eight corners with the per-axis
weights `axis_weight`. -/
theorem trilinear_eq_corner_sum {α : Type} (unpack_tsdf : α → float2)
    (t : ℤ → ℤ → ℤ → α) (x y z : ℚ) :
    read_tsdf_texture_value_trilinear unpack_tsdf t x y z
      = corner_sum axis_weight unpack_tsdf t x y z := by
  rw [read_tsdf_texture_value_trilinear_unfold]
  simp only [corner_sum, corner_offset, axis_weight, List.map_cons, List.map_nil,
    List.sum_cons, List.sum_nil, add_zero, if_true, if_false, Bool.false_eq_true]
  ring

/-- The sampler applied to the indicator texture of one of the eight corners
returns the product of that corner's per-axis weights. -/
theorem trilinear_indicator_grid (x y z : ℚ) (dx dy dz : Bool) :
    read_tsdf_texture_value_trilinear (fun v => v)
        (indicator_grid (lower_corner x + corner_offset dx)
          (lower_corner y + corner_offset dy) (lower_corner z + corner_offset dz)) x y z
      = axis_weight dx (x - lower_corner x) * axis_weight dy (y - lower_corner y)
          * axis_weight dz (z - lower_corner z) := by
  rw [read_tsdf_texture_value_trilinear_unfold]
  cases dx <;> cases dy <;> cases dz <;>
    simp [indicator_grid, corner_offset, axis_weight] <;> ring

/-- Truncation toward zero of a non-negative value is the floor. -/
theorem truncToZero_of_nonneg {q : ℚ} (h : 0 ≤ q) : truncToZero q = ⌊q⌋ := by
  simp [truncToZero, h]

/-- Truncation toward zero of a negative value is the ceiling. -/
theorem truncToZero_of_neg {q : ℚ} (h : q < 0) : truncToZero q = ⌈q⌉ := by
  simp [truncToZero, not_le.mpr h]

/-- Truncation toward zero moves a value by less than one, toward zero. -/
theorem truncToZero_spec (q : ℚ) :
    (0 ≤ q → 0 ≤ truncToZero q ∧ (truncToZero q : ℚ) ≤ q ∧ q < (truncToZero q : ℚ) + 1) ∧
      (q < 0 → truncToZero q ≤ 0 ∧ q ≤ (truncToZero q : ℚ) ∧ (truncToZero q : ℚ) < q + 1) := by
  constructor
  · intro h
    rw [truncToZero_of_nonneg h]
    exact ⟨Int.floor_nonneg.mpr h, Int.floor_le q, Int.lt_floor_add_one q⟩
  · intro h
    rw [truncToZero_of_neg h]
    refine ⟨?_, Int.le_ceil q, Int.ceil_lt_add_one q⟩
    rw [Int.ceil_le]
    simpa using h.le

/-- Truncation toward zero moves a value by less than one. -/
theorem abs_truncToZero_sub_lt (q : ℚ) : |(truncToZero q : ℚ) - q| < 1 := by
  rw [abs_lt]
  rcases le_or_lt 0 q with h | h
  · obtain ⟨_, h2, h3⟩ := (truncToZero_spec q).1 h
    constructor <;> linarith
  · obtain ⟨_, h2, h3⟩ := (truncToZero_spec q).2 h
    constructor <;> linarith

/-- Truncation toward zero keeps a value inside a symmetric integer range. -/
theorem truncToZero_mem_range (q : ℚ) (B : ℤ) (hlo : -(B : ℚ) ≤ q) (hhi : q ≤ (B : ℚ)) :
    -B ≤ truncToZero q ∧ truncToZero q ≤ B := by
  rcases le_or_lt 0 q with h | h
  · obtain ⟨h1, h2, _⟩ := (truncToZero_spec q).1 h
    have hB : (truncToZero q : ℚ) ≤ (B : ℚ) := le_trans h2 hhi
    have hB' : truncToZero q ≤ B := by exact_mod_cast hB
    constructor <;> omega
  · obtain ⟨h1, h2, _⟩ := (truncToZero_spec q).2 h
    have hB : ((-B : ℤ) : ℚ) ≤ (truncToZero q : ℚ) := by
      push_cast
      exact le_trans hlo h2
    have hB' : -B ≤ truncToZero q := by exact_mod_cast hB
    constructor <;> omega

/-- The 16-bit wrap leaves every value of the `short` range unchanged. -/
theorem wrap16_of_mem_range {n : ℤ} (hlo : -32768 ≤ n) (hhi : n ≤ 32767) : wrap16 n = n := by
  unfold wrap16
  omega

/-- The distance channel written by the `short2` `pack_tsdf` for `d` in
`[-1, 1]`: no wrap takes place. -/
theorem ShortTsdf.pack_tsdf_x {d : ℚ} (hlo : -1 ≤ d) (hhi : d ≤ 1) (w : ℚ) :
    (ShortTsdf.pack_tsdf d w).x = truncToZero (d * 32767) := by
  have h1 : -((32767 : ℤ) : ℚ) ≤ d * 32767 := by push_cast; linarith
  have h2 : d * 32767 ≤ ((32767 : ℤ) : ℚ) := by push_cast; linarith
  obtain ⟨h3, h4⟩ := truncToZero_mem_range (d * 32767) 32767 h1 h2
  simp only [ShortTsdf.pack_tsdf, make_short2, float2short, ShortTsdf.TSDF_DIVISOR]
  norm_num
  exact wrap16_of_mem_range (by omega) (by omega)

/-- The 32-bit wrap leaves every value of the `int` range unchanged. -/
theorem wrap32_of_mem_range {n : ℤ} (hlo : -2147483648 ≤ n) (hhi : n ≤ 2147483647) :
    wrap32 n = n := by
  unfold wrap32
  omega

/-- For a level index of at most `30` the shift `1 << L` is `2 ^ L`. -/
theorem shl_one_of_le {L : ℕ} (hL : L ≤ 30) : shl_one (L : ℤ) = some ((2 : ℤ) ^ L) := by
  have hpos : (0 : ℤ) < 2 ^ L := by positivity
  have hle : (2 : ℤ) ^ L ≤ 2 ^ 30 := pow_le_pow_right₀ (by norm_num) hL
  have hle' : (2 : ℤ) ^ L ≤ 1073741824 := by
    have e : (2 : ℤ) ^ 30 = 1073741824 := by norm_num
    rw [e] at hle
    exact hle
  have hc : (0 : ℤ) ≤ (L : ℤ) ∧ (L : ℤ) < 32 := by
    constructor <;> omega
  simp only [shl_one, hc, and_self, if_true, Int.toNat_natCast]
  rw [wrap32_of_mem_range (by omega) (by omega)]

/-- The shift `1 << 31` is `INT_MIN`. -/
theorem shl_one_31 : shl_one 31 = some (-2147483648) := by
  decide

/-- A shift count of `32` has no defined result. -/
theorem shl_one_32 : shl_one 32 = none := by
  decide

/-- The call operator at a level index of at most `30`. -/
theorem Intr.operator_call_of_le (K : Intr) {L : ℕ} (hL : L ≤ 30) :
    K.operator_call (L : ℤ)
      = some (Intr.mk4 (K.fx / 2 ^ L) (K.fy / 2 ^ L) (K.cx / 2 ^ L) (K.cy / 2 ^ L)) := by
  simp only [Intr.operator_call, shl_one_of_le hL]
  push_cast
  rfl

/-- The six-decimal square root of zero is zero. -/
theorem Tbx.approx_sqrt_zero : Tbx.approx_sqrt 0 = 0 := by
  simp [Tbx.approx_sqrt]

/-- The rational instance of the library has the properties the
specification gives the library. -/
theorem Tbx.ratLib_lawful : Tbx.ratLib.Lawful where
  norm_zero := by
    simp [Tbx.ratLib, Tbx.approx_sqrt_zero]
  rotation_dual_quat := by
    intro q t
    rfl
  translation_dual_quat := by
    intro q t
    rfl
  angle_identity := by
    intro axis angle
    simp [Tbx.ratLib, Tbx.approx_sqrt_zero]

/-- A node without rotation takes the `theta == 0` branch of `to_dual_quat`. -/
theorem WarpNode.to_dual_quat_zero {Q DQ : Type} (lib : Tbx.Lib Q DQ)
    (hnorm : lib.norm ⟨0, 0, 0⟩ = 0) (t : Tbx.Vec3) :
    WarpNode.to_dual_quat lib ⟨⟨0, 0, 0⟩, t⟩ = lib.dual_quat lib.quat_identity t := by
  simp only [WarpNode.to_dual_quat, hnorm, if_true]

/-- One call of the registry keeps what was registered and adds the id. -/
theorem mem_is_cuda_pbo_vbo_id_used_push_new (used : List ℕ) (rid x : ℕ) :
    x ∈ (is_cuda_pbo_vbo_id_used_push_new used rid).2 ↔ x ∈ used ∨ x = rid := by
  unfold is_cuda_pbo_vbo_id_used_push_new
  by_cases h : rid ∈ used
  · simp only [h, if_true]
    constructor
    · intro hx
      exact Or.inl hx
    · rintro (hx | hx)
      · exact hx
      · rw [hx]
        exact h
  · simp only [h, if_false, List.mem_cons]
    tauto

/-- The registry after a sequence of calls holds what it held before and the
ids of the calls. -/
theorem mem_registry_run (calls : List ℕ) (used : List ℕ) (x : ℕ) :
    x ∈ registry_run used calls ↔ x ∈ used ∨ x ∈ calls := by
  induction calls generalizing used with
  | nil => simp [registry_run]
  | cons c cs ih =>
    have e : registry_run used (c :: cs)
        = registry_run (is_cuda_pbo_vbo_id_used_push_new used c).2 cs := rfl
    rw [e, ih, mem_is_cuda_pbo_vbo_id_used_push_new, List.mem_cons]
    tauto

/-- The value returned by a call of the registry tells whether the id was
registered. -/
theorem is_cuda_pbo_vbo_id_used_push_new_fst (used : List ℕ) (rid : ℕ) :
    (is_cuda_pbo_vbo_id_used_push_new used rid).1 = true ↔ rid ∈ used := by
  unfold is_cuda_pbo_vbo_id_used_push_new
  by_cases h : rid ∈ used <;> simp [h]

/-- A right fold of `min` is below every element of the list. -/
theorem foldr_min_le (l : List ℚ) (a x : ℚ) (hx : x ∈ l) : l.foldr min a ≤ x := by
  induction l with
  | nil => simp at hx
  | cons b bs ih =>
    rw [List.foldr_cons]
    rcases List.mem_cons.mp hx with h | h
    · rw [h]
      exact min_le_left _ _
    · exact le_trans (min_le_right _ _) (ih h)

/-- A right fold of `max` is above every element of the list. -/
theorem le_foldr_max (l : List ℚ) (a x : ℚ) (hx : x ∈ l) : x ≤ l.foldr max a := by
  induction l with
  | nil => simp at hx
  | cons b bs ih =>
    rw [List.foldr_cons]
    rcases List.mem_cons.mp hx with h | h
    · rw [h]
      exact le_max_left _ _
    · exact le_trans (ih h) (le_max_right _ _)

/-- A blend of two values with weights `1 - f` and `f`, `0 ≤ f ≤ 1`, is above
every common lower bound of the two. -/
theorem le_blend {lo p q f : ℚ} (hp : lo ≤ p) (hq : lo ≤ q) (h0 : 0 ≤ f) (h1 : f ≤ 1) :
    lo ≤ p * (1 - f) + q * f := by
  have e : p * (1 - f) + q * f = lo + ((p - lo) * (1 - f) + (q - lo) * f) := by ring
  rw [e]
  have h2 : 0 ≤ (p - lo) * (1 - f) := mul_nonneg (by linarith) (by linarith)
  have h3 : 0 ≤ (q - lo) * f := mul_nonneg (by linarith) h0
  linarith

/-- A blend of two values with weights `1 - f` and `f`, `0 ≤ f ≤ 1`, is below
every common upper bound of the two. -/
theorem blend_le {hi p q f : ℚ} (hp : p ≤ hi) (hq : q ≤ hi) (h0 : 0 ≤ f) (h1 : f ≤ 1) :
    p * (1 - f) + q * f ≤ hi := by
  have e : p * (1 - f) + q * f = hi - ((hi - p) * (1 - f) + (hi - q) * f) := by ring
  rw [e]
  have h2 : 0 ≤ (hi - p) * (1 - f) := mul_nonneg (by linarith) (by linarith)
  have h3 : 0 ≤ (hi - q) * f := mul_nonneg (by linarith) h0
  linarith

/-- A per-axis weight at a fraction in `[0, 1]` lies in `[0, 1]`. -/
theorem axis_weight_mem (high : Bool) {f : ℚ} (h0 : 0 ≤ f) (h1 : f ≤ 1) :
    0 ≤ axis_weight high f ∧ axis_weight high f ≤ 1 := by
  cases high
  · simp only [axis_weight, Bool.false_eq_true, if_false]
    constructor <;> linarith
  · simp only [axis_weight, if_true]
    exact ⟨h0, h1⟩

/-- The weight of a corner lies in `[0, 1]`. -/
theorem corner_weight_mem (x y z : ℚ) (c : Bool × Bool × Bool) :
    0 ≤ corner_weight x y z c ∧ corner_weight x y z c ≤ 1 := by
  obtain ⟨hx0, hx1⟩ := lower_corner_offset_bounds x
  obtain ⟨hy0, hy1⟩ := lower_corner_offset_bounds y
  obtain ⟨hz0, hz1⟩ := lower_corner_offset_bounds z
  obtain ⟨a0, a1⟩ := axis_weight_mem c.1 hx0.le hx1
  obtain ⟨b0, b1⟩ := axis_weight_mem c.2.1 hy0.le hy1
  obtain ⟨c0, c1⟩ := axis_weight_mem c.2.2 hz0.le hz1
  unfold corner_weight
  have hab0 := mul_nonneg a0 b0
  have hab1 : axis_weight c.1 (x - (lower_corner x : ℚ))
      * axis_weight c.2.1 (y - (lower_corner y : ℚ)) ≤ 1 := by
    calc axis_weight c.1 (x - (lower_corner x : ℚ))
          * axis_weight c.2.1 (y - (lower_corner y : ℚ))
        ≤ 1 * 1 := mul_le_mul a1 b1 b0 zero_le_one
      _ = 1 := one_mul 1
  constructor
  · exact mul_nonneg hab0 c0
  · calc axis_weight c.1 (x - (lower_corner x : ℚ))
          * axis_weight c.2.1 (y - (lower_corner y : ℚ))
          * axis_weight c.2.2 (z - (lower_corner z : ℚ))
        ≤ 1 * 1 := mul_le_mul hab1 c1 c0 zero_le_one
      _ = 1 := one_mul 1

/-- The eight corner weights sum to one. -/
theorem corner_weight_sum (x y z : ℚ) : (corners.map (corner_weight x y z)).sum = 1 := by
  simp only [corners, corner_weight, axis_weight, List.map_cons, List.map_nil, List.sum_cons,
    List.sum_nil, add_zero, if_true, if_false, Bool.false_eq_true]
  ring

/-- The sampler lies between any common bounds of the eight corner distances. -/
theorem trilinear_between {α : Type} (unpack_tsdf : α → float2) (t : ℤ → ℤ → ℤ → α)
    (x y z lo hi : ℚ)
    (hlo : ∀ c ∈ corners, lo ≤ corner_distance unpack_tsdf t x y z c)
    (hhi : ∀ c ∈ corners, corner_distance unpack_tsdf t x y z c ≤ hi) :
    lo ≤ read_tsdf_texture_value_trilinear unpack_tsdf t x y z ∧
      read_tsdf_texture_value_trilinear unpack_tsdf t x y z ≤ hi := by
  obtain ⟨hx0, hx1⟩ := lower_corner_offset_bounds x
  obtain ⟨hy0, hy1⟩ := lower_corner_offset_bounds y
  obtain ⟨hz0, hz1⟩ := lower_corner_offset_bounds z
  have l000 := hlo (false, false, false) (by simp [corners])
  have l001 := hlo (false, false, true) (by simp [corners])
  have l010 := hlo (false, true, false) (by simp [corners])
  have l011 := hlo (false, true, true) (by simp [corners])
  have l100 := hlo (true, false, false) (by simp [corners])
  have l101 := hlo (true, false, true) (by simp [corners])
  have l110 := hlo (true, true, false) (by simp [corners])
  have l111 := hlo (true, true, true) (by simp [corners])
  have u000 := hhi (false, false, false) (by simp [corners])
  have u001 := hhi (false, false, true) (by simp [corners])
  have u010 := hhi (false, true, false) (by simp [corners])
  have u011 := hhi (false, true, true) (by simp [corners])
  have u100 := hhi (true, false, false) (by simp [corners])
  have u101 := hhi (true, false, true) (by simp [corners])
  have u110 := hhi (true, true, false) (by simp [corners])
  have u111 := hhi (true, true, true) (by simp [corners])
  simp only [corner_distance, corner_offset, if_true, if_false, Bool.false_eq_true,
    add_zero] at l000 l001 l010 l011 l100 l101 l110 l111 u000 u001 u010 u011 u100 u101 u110 u111
  rw [read_tsdf_texture_value_trilinear_unfold]
  constructor
  · exact le_blend
      (le_blend (le_blend l000 l001 hz0.le hz1) (le_blend l010 l011 hz0.le hz1) hy0.le hy1)
      (le_blend (le_blend l100 l101 hz0.le hz1) (le_blend l110 l111 hz0.le hz1) hy0.le hy1)
      hx0.le hx1
  · exact blend_le
      (blend_le (blend_le u000 u001 hz0.le hz1) (blend_le u010 u011 hz0.le hz1) hy0.le hy1)
      (blend_le (blend_le u100 u101 hz0.le hz1) (blend_le u110 u111 hz0.le hz1) hy0.le hy1)
      hx0.le hx1

/-- Rounding to nearest-even stays between floor and ceiling and moves a
value by at most one half. -/
theorem round_ties_even_bounds (x : ℚ) :
    ⌊x⌋ ≤ round_ties_even x ∧ round_ties_even x ≤ ⌈x⌉ ∧
      |(round_ties_even x : ℚ) - x| ≤ 1 / 2 := by
  have h1 := Int.floor_le x
  have h2 := Int.lt_floor_add_one x
  have hfc := Int.floor_le_ceil x
  have hup : 0 < x - (⌊x⌋ : ℚ) → ⌊x⌋ + 1 ≤ ⌈x⌉ := by
    intro h
    have h3 : ⌊x⌋ < ⌈x⌉ := Int.lt_ceil.mpr (by linarith)
    omega
  unfold round_ties_even
  simp only []
  split_ifs with ha hb hc
  · refine ⟨le_rfl, hfc, ?_⟩
    rw [abs_le]
    constructor <;> linarith
  · refine ⟨by omega, hup (by linarith), ?_⟩
    rw [abs_le]
    push_cast
    constructor <;> linarith
  · refine ⟨le_rfl, hfc, ?_⟩
    rw [abs_le]
    constructor <;> linarith
  · have hr : x - (⌊x⌋ : ℚ) = 1 / 2 := le_antisymm (not_lt.mp hb) (not_lt.mp ha)
    refine ⟨by omega, hup (by linarith), ?_⟩
    rw [abs_le]
    push_cast
    constructor <;> linarith

/-- Rounding to nearest-even of a value less than one half away from an
integer gives that integer. -/
theorem round_ties_even_eq {x : ℚ} {n : ℤ} (h1 : (n : ℚ) - 1 / 2 < x) (h2 : x < (n : ℚ) + 1 / 2) :
    round_ties_even x = n := by
  have hb := (round_ties_even_bounds x).2.2
  rw [abs_le] at hb
  have h3 : ((round_ties_even x : ℤ) : ℚ) < ((n + 1 : ℤ) : ℚ) := by
    push_cast
    linarith [hb.2]
  have h4 : ((n - 1 : ℤ) : ℚ) < ((round_ties_even x : ℤ) : ℚ) := by
    push_cast
    linarith [hb.1]
  have h5 : round_ties_even x < n + 1 := by exact_mod_cast h3
  have h6 : n - 1 < round_ties_even x := by exact_mod_cast h4
  omega

/-- The exponent of a magnitude with `2^e ≤ a < 2^(e+1)`, `e ≥ -14`. -/
theorem HalfTsdf.half_exponent_eq {a : ℚ} {e : ℤ} (h1 : (2 : ℚ) ^ e ≤ a)
    (h2 : a < (2 : ℚ) ^ (e + 1)) (he : -14 ≤ e) : HalfTsdf.half_exponent a = e := by
  have hpos : 0 < a := lt_of_lt_of_le (by positivity) h1
  have hlow : ¬ a < (2 : ℚ) ^ (-14 : ℤ) := by
    rw [not_lt]
    exact le_trans (zpow_le_zpow_right₀ (by norm_num) he) h1
  have h3 : e ≤ Int.log 2 a := by
    rw [← Int.zpow_le_iff_le_log (by norm_num) hpos]
    simpa using h1
  have h4 : Int.log 2 a < e + 1 := by
    rw [← Int.lt_zpow_iff_log_lt (by norm_num) hpos]
    simpa using h2
  simp only [HalfTsdf.half_exponent, hlow, if_false]
  omega

/-- In the normal range the exponent lies in `-14 .. 15` and brackets the
magnitude. -/
theorem HalfTsdf.half_exponent_spec {a : ℚ} (h1 : 1 / 16384 ≤ a) (h2 : a ≤ 65504) :
    -14 ≤ HalfTsdf.half_exponent a ∧ HalfTsdf.half_exponent a ≤ 15 ∧
      (2 : ℚ) ^ HalfTsdf.half_exponent a ≤ a ∧ a < (2 : ℚ) ^ (HalfTsdf.half_exponent a + 1) := by
  have hpos : 0 < a := lt_of_lt_of_le (by norm_num) h1
  have hlow : ¬ a < (2 : ℚ) ^ (-14 : ℤ) := by
    rw [not_lt]
    norm_num
    linarith
  have h3 : (-14 : ℤ) ≤ Int.log 2 a := by
    rw [← Int.zpow_le_iff_le_log (by norm_num) hpos]
    norm_num
    linarith
  have h4 : Int.log 2 a < 16 := by
    rw [← Int.lt_zpow_iff_log_lt (by norm_num) hpos]
    norm_num
    linarith
  have h5 := Int.zpow_log_le_self (b := 2) (by norm_num) hpos
  have h6 := Int.lt_zpow_succ_log_self (b := 2) (by norm_num) a
  simp only [HalfTsdf.half_exponent, hlow, if_false]
  refine ⟨h3, by omega, ?_, ?_⟩
  · simpa using h5
  · simpa using h6

/-- The value of the pattern with sign `s`, exponent `e` and 11-bit
significand `m` (a carry `m = 2048` included) is `± m * 2^(e - 10)`. -/
theorem HalfTsdf.half2float_encode (s e m : ℤ) (hs : s = 0 ∨ s = 1) (he : -14 ≤ e)
    (he2 : e ≤ 15) (hm : 1024 ≤ m) (hm2 : m ≤ 2048) (hlt : (e + 14) * 1024 + m < 31744) :
    HalfTsdf.half2float (s * 32768 + ((e + 14) * 1024 + m))
      = if s = 1 then -((m : ℚ) * 2 ^ (e - 10)) else (m : ℚ) * 2 ^ (e - 10) := by
  have hS : (s * 32768 + ((e + 14) * 1024 + m)) / 32768 % 2 = s := by omega
  rcases hm2.lt_or_eq with hlt2 | heq
  · have hE : (s * 32768 + ((e + 14) * 1024 + m)) / 1024 % 32 = e + 15 := by omega
    have hM : (s * 32768 + ((e + 14) * 1024 + m)) % 1024 = m - 1024 := by omega
    have hne : e + 15 ≠ 0 := by omega
    have ex : e + 15 - 25 = e - 10 := by ring
    have hc : (1024 + ((m - 1024 : ℤ) : ℚ)) = (m : ℚ) := by
      push_cast
      ring
    simp only [HalfTsdf.half2float, hS, hE, hM, hne, if_false, ex, hc]
  · have hE : (s * 32768 + ((e + 14) * 1024 + m)) / 1024 % 32 = e + 16 := by omega
    have hM : (s * 32768 + ((e + 14) * 1024 + m)) % 1024 = 0 := by omega
    have hne : e + 16 ≠ 0 := by omega
    have ex : e + 16 - 25 = e - 10 + 1 := by ring
    have hp : (2 : ℚ) ^ (e - 10 + 1) = 2 ^ (e - 10) * 2 := zpow_add_one₀ (by norm_num) _
    have hc : (1024 + ((0 : ℤ) : ℚ)) * ((2 : ℚ) ^ (e - 10) * 2) = (m : ℚ) * 2 ^ (e - 10) := by
      rw [heq]
      push_cast
      ring
    simp only [HalfTsdf.half2float, hS, hE, hM, hne, if_false, ex, hp, hc]

/-- In the normal range the rounded significand lies in `1024 .. 2048`, the
pattern stays below the exponent field `31`, and the value of the pattern is
within a relative `1/2048` of the magnitude. -/
theorem HalfTsdf.half_mantissa_spec {a : ℚ} (h1 : 1 / 16384 ≤ a) (h2 : a ≤ 65504) :
    1024 ≤ round_ties_even (a * 2 ^ (10 - HalfTsdf.half_exponent a)) ∧
      round_ties_even (a * 2 ^ (10 - HalfTsdf.half_exponent a)) ≤ 2048 ∧
      (HalfTsdf.half_exponent a + 14) * 1024
          + round_ties_even (a * 2 ^ (10 - HalfTsdf.half_exponent a)) < 31744 ∧
      |(round_ties_even (a * 2 ^ (10 - HalfTsdf.half_exponent a)) : ℚ)
          * 2 ^ (HalfTsdf.half_exponent a - 10) - a| ≤ a / 2048 := by
  obtain ⟨he1, he2, hP1, hP2⟩ := HalfTsdf.half_exponent_spec h1 h2
  generalize HalfTsdf.half_exponent a = e at he1 he2 hP1 hP2 ⊢
  have hPpos : (0 : ℚ) < 2 ^ e := by positivity
  have hP2' : a < (2 : ℚ) ^ e * 2 := by
    rw [← zpow_add_one₀ (by norm_num : (2 : ℚ) ≠ 0)]
    exact hP2
  have hz1 : (2 : ℚ) ^ (10 - e) = 1024 / 2 ^ e := by
    rw [zpow_sub₀ (by norm_num : (2 : ℚ) ≠ 0)]
    norm_num
  have hz2 : (2 : ℚ) ^ (e - 10) = 2 ^ e / 1024 := by
    rw [zpow_sub₀ (by norm_num : (2 : ℚ) ≠ 0)]
    norm_num
  have h15 : e = 15 → (32768 : ℚ) ≤ 2 ^ e := by
    intro h
    rw [h]
    norm_num
  rw [hz1, hz2]
  generalize (2 : ℚ) ^ e = P at hPpos hP1 hP2' h15
  have hxP : a * (1024 / P) * P = a * 1024 := by
    field_simp
  have hx1 : (1024 : ℚ) ≤ a * (1024 / P) := by
    apply le_of_mul_le_mul_right _ hPpos
    rw [hxP]
    linarith
  have hx2 : a * (1024 / P) < 2048 := by
    apply lt_of_mul_lt_mul_right _ hPpos.le
    rw [hxP]
    linarith
  obtain ⟨hb1, hb2, hb3⟩ := round_ties_even_bounds (a * (1024 / P))
  have hfl : (1024 : ℤ) ≤ ⌊a * (1024 / P)⌋ := Int.le_floor.mpr (by simpa using hx1)
  have hce : ⌈a * (1024 / P)⌉ ≤ (2048 : ℤ) := Int.ceil_le.mpr (by simpa using hx2.le)
  have hm1 : 1024 ≤ round_ties_even (a * (1024 / P)) := le_trans hfl hb1
  have hm2 : round_ties_even (a * (1024 / P)) ≤ 2048 := le_trans hb2 hce
  refine ⟨hm1, hm2, ?_, ?_⟩
  · rcases he2.lt_or_eq with h | h
    · omega
    · have hx3 : a * (1024 / P) ≤ 2047 := by
        apply le_of_mul_le_mul_right _ hPpos
        rw [hxP]
        have hP15 : (32768 : ℚ) ≤ P := h15 h
        linarith
      have hce2 : ⌈a * (1024 / P)⌉ ≤ (2047 : ℤ) := Int.ceil_le.mpr (by simpa using hx3)
      omega
  · rw [abs_le] at hb3 ⊢
    have e1 : (round_ties_even (a * (1024 / P)) : ℚ) * (P / 1024) - a
        = ((round_ties_even (a * (1024 / P)) : ℚ) - a * (1024 / P)) * (P / 1024) := by
      field_simp
      ring
    rw [e1]
    have hq : 0 < P / 1024 := by positivity
    constructor
    · nlinarith [hb3.1, hb3.2]
    · nlinarith [hb3.1, hb3.2]

/-- One channel of the half-precision codec: in the normal range the
conversion to half and back stays within a relative `1/2048`, and the pattern
has 16 bits. -/
theorem HalfTsdf.half2float_float2half_rn (q : ℚ) (h1 : 1 / 16384 ≤ |q|) (h2 : |q| ≤ 65504) :
    |HalfTsdf.half2float (HalfTsdf.float2half_rn q) - q| ≤ |q| / 2048 ∧
      0 ≤ HalfTsdf.float2half_rn q ∧ HalfTsdf.float2half_rn q < 65536 := by
  obtain ⟨hm1, hm2, hlt, herr⟩ := HalfTsdf.half_mantissa_spec h1 h2
  obtain ⟨he1, he2, _, _⟩ := HalfTsdf.half_exponent_spec h1 h2
  have hmin := min_eq_left hlt.le
  by_cases hq : q < 0
  · have hbits : HalfTsdf.float2half_rn q
        = 1 * 32768 + ((HalfTsdf.half_exponent |q| + 14) * 1024
            + round_ties_even (|q| * 2 ^ (10 - HalfTsdf.half_exponent |q|))) := by
      simp only [HalfTsdf.float2half_rn, hq, if_true, hmin]
      ring
    refine ⟨?_, ?_, ?_⟩
    · rw [hbits, HalfTsdf.half2float_encode 1 _ _ (Or.inr rfl) he1 he2 hm1 hm2 hlt]
      simp only [if_true]
      have habs : |q| = -q := abs_of_neg hq
      rw [abs_le] at herr ⊢
      constructor <;> linarith [herr.1, herr.2]
    · rw [hbits]
      omega
    · rw [hbits]
      omega
  · have hbits : HalfTsdf.float2half_rn q
        = 0 * 32768 + ((HalfTsdf.half_exponent |q| + 14) * 1024
            + round_ties_even (|q| * 2 ^ (10 - HalfTsdf.half_exponent |q|))) := by
      simp only [HalfTsdf.float2half_rn, hq, if_false, hmin]
      ring
    refine ⟨?_, ?_, ?_⟩
    · rw [hbits, HalfTsdf.half2float_encode 0 _ _ (Or.inl rfl) he1 he2 hm1 hm2 hlt]
      simp only [zero_ne_one, if_false]
      have habs : |q| = q := abs_of_nonneg (not_lt.mp hq)
      rw [abs_le] at herr ⊢
      constructor <;> linarith [herr.1, herr.2]
    · rw [hbits]
      omega
    · rw [hbits]
      omega

/-- Reading the 32 bits of a `half2` as an `int` and back gives the two
16-bit patterns again. -/
theorem HalfTsdf.int_as_half2_half2_as_int (h : half2) (hx0 : 0 ≤ h.x) (hx1 : h.x < 65536)
    (hy0 : 0 ≤ h.y) (hy1 : h.y < 65536) :
    HalfTsdf.int_as_half2 (HalfTsdf.half2_as_int h) = h := by
  obtain ⟨x, y⟩ := h
  simp only at hx0 hx1 hy0 hy1
  simp only [HalfTsdf.int_as_half2, HalfTsdf.half2_as_int, wrap32, half2.mk.injEq]
  constructor <;> omega

/-- The pattern of a value with `2^e ≤ q < 2^(e+1)` whose scaled magnitude is
less than one half away from the integer `m`. -/
theorem HalfTsdf.float2half_rn_eq {q : ℚ} (e m : ℤ) (hq : 0 ≤ q) (h1 : (2 : ℚ) ^ e ≤ q)
    (h2 : q < (2 : ℚ) ^ (e + 1)) (he : -14 ≤ e)
    (hm1 : (m : ℚ) - 1 / 2 < q * 2 ^ (10 - e)) (hm2 : q * 2 ^ (10 - e) < (m : ℚ) + 1 / 2)
    (hlt : (e + 14) * 1024 + m < 31744) :
    HalfTsdf.float2half_rn q = (e + 14) * 1024 + m := by
  have habs : |q| = q := abs_of_nonneg hq
  have hneg : ¬ q < 0 := not_lt.mpr hq
  simp only [HalfTsdf.float2half_rn, habs, hneg, if_false, HalfTsdf.half_exponent_eq h1 h2 he,
    round_ties_even_eq hm1 hm2, min_eq_left hlt.le, zero_add]

/-- Truncation toward zero leaves an integer unchanged. -/
theorem truncToZero_intCast (n : ℤ) : truncToZero (n : ℚ) = n := by
  unfold truncToZero
  split_ifs
  · exact Int.floor_intCast n
  · exact Int.ceil_intCast n

/-- Truncation toward zero is monotone. -/
theorem truncToZero_mono {p q : ℚ} (h : p ≤ q) : truncToZero p ≤ truncToZero q := by
  rcases le_or_lt 0 p with hp | hp
  · rw [truncToZero_of_nonneg hp, truncToZero_of_nonneg (le_trans hp h)]
    exact Int.floor_mono h
  · rcases le_or_lt 0 q with hq | hq
    · rw [truncToZero_of_neg hp, truncToZero_of_nonneg hq]
      have h1 : ⌈p⌉ ≤ 0 := Int.ceil_le.mpr (by simpa using hp.le)
      have h2 : 0 ≤ ⌊q⌋ := Int.floor_nonneg.mpr hq
      omega
    · rw [truncToZero_of_neg hp, truncToZero_of_neg hq]
      exact Int.ceil_mono h

/-- The exponent single-precision rounding works at is at most `14` for a
magnitude of at most `32767`, and at least `-126`. -/
theorem binary32_exponent_le {a : ℚ} (ha : a ≤ 32767) :
    (if a < (2 : ℚ) ^ (-126 : ℤ) then (-126 : ℤ) else Int.log 2 a) ≤ 14 := by
  split_ifs with h
  · norm_num
  · have hpos : 0 < a := lt_of_lt_of_le (by positivity) (not_lt.mp h)
    have h4 : Int.log 2 a < 15 := by
      rw [← Int.lt_zpow_iff_log_lt (by norm_num) hpos]
      norm_num
      linarith
    omega

/-- Single-precision rounding of a magnitude of at most `32767` does not cross
an integer: the rounded significand, scaled back, stays on the same side of
every integer as the magnitude. -/
theorem binary32_magnitude_bracket {a : ℚ} (e : ℤ) (he : e ≤ 14) (k : ℤ) :
    ((k : ℚ) ≤ a → (k : ℚ) ≤ (round_ties_even (a * 2 ^ (23 - e)) : ℚ) * 2 ^ (e - 23)) ∧
      (a ≤ (k : ℚ) → (round_ties_even (a * 2 ^ (23 - e)) : ℚ) * 2 ^ (e - 23) ≤ (k : ℚ)) := by
  obtain ⟨T, hT⟩ := Int.eq_ofNat_of_zero_le (show (0 : ℤ) ≤ 23 - e by omega)
  have hK : (2 : ℚ) ^ (23 - e) = (((2 : ℤ) ^ T : ℤ) : ℚ) := by
    rw [hT]
    push_cast
    exact zpow_natCast 2 T
  have hKinv : (2 : ℚ) ^ (e - 23) = ((((2 : ℤ) ^ T : ℤ) : ℚ))⁻¹ := by
    have e1 : e - 23 = -(23 - e) := by ring
    rw [e1, zpow_neg, hK]
  have hKpos : (0 : ℚ) < (((2 : ℤ) ^ T : ℤ) : ℚ) := by
    have : (0 : ℤ) < 2 ^ T := by positivity
    exact_mod_cast this
  rw [hK, hKinv]
  obtain ⟨hb1, hb2, _⟩ := round_ties_even_bounds (a * (((2 : ℤ) ^ T : ℤ) : ℚ))
  constructor
  · intro hk
    have h1 : ((k * 2 ^ T : ℤ) : ℚ) ≤ a * (((2 : ℤ) ^ T : ℤ) : ℚ) := by
      push_cast
      exact mul_le_mul_of_nonneg_right hk (by exact_mod_cast hKpos.le)
    have h2 : k * 2 ^ T ≤ round_ties_even (a * (((2 : ℤ) ^ T : ℤ) : ℚ)) :=
      le_trans (Int.le_floor.mpr h1) hb1
    have h3 : ((k * 2 ^ T : ℤ) : ℚ) ≤ (round_ties_even (a * (((2 : ℤ) ^ T : ℤ) : ℚ)) : ℚ) := by
      exact_mod_cast h2
    rw [← div_eq_mul_inv, le_div_iff₀ hKpos]
    push_cast at h3 ⊢
    exact h3
  · intro hk
    have h1 : a * (((2 : ℤ) ^ T : ℤ) : ℚ) ≤ ((k * 2 ^ T : ℤ) : ℚ) := by
      push_cast
      exact mul_le_mul_of_nonneg_right hk (by exact_mod_cast hKpos.le)
    have h2 : round_ties_even (a * (((2 : ℤ) ^ T : ℤ) : ℚ)) ≤ k * 2 ^ T :=
      le_trans hb2 (Int.ceil_le.mpr h1)
    have h3 : (round_ties_even (a * (((2 : ℤ) ^ T : ℤ) : ℚ)) : ℚ) ≤ ((k * 2 ^ T : ℤ) : ℚ) := by
      exact_mod_cast h2
    rw [← div_eq_mul_inv, div_le_iff₀ hKpos]
    push_cast at h3 ⊢
    exact h3

/-- Single-precision rounding of a value of magnitude at most `32767` does not
cross an integer. -/
theorem binary32_round_bracket {p : ℚ} (hp : |p| ≤ 32767) (n : ℤ) :
    ((n : ℚ) ≤ p → (n : ℚ) ≤ binary32_round p) ∧ (p ≤ (n : ℚ) → binary32_round p ≤ (n : ℚ)) := by
  have he := binary32_exponent_le hp
  by_cases hneg : p < 0
  · have habs : |p| = -p := abs_of_neg hneg
    obtain ⟨hb1, hb2⟩ := binary32_magnitude_bracket (a := |p|) _ he (-n)
    simp only [binary32_round, hneg, if_true]
    constructor
    · intro h
      have := hb2 (by rw [habs]; push_cast; linarith)
      push_cast at this
      linarith
    · intro h
      have := hb1 (by rw [habs]; push_cast; linarith)
      push_cast at this
      linarith
  · have habs : |p| = p := abs_of_nonneg (not_lt.mp hneg)
    obtain ⟨hb1, hb2⟩ := binary32_magnitude_bracket (a := |p|) _ he n
    simp only [binary32_round, hneg, if_false]
    constructor
    · intro h
      exact hb1 (by rw [habs]; exact h)
    · intro h
      exact hb2 (by rw [habs]; exact h)

/-- The single-precision rounding of a non-negative value with
`2^e ≤ q < 2^(e+1)` whose scaled magnitude is less than one half away from the
integer `m`. -/
theorem binary32_round_eq {q : ℚ} (e m : ℤ) (hq : 0 ≤ q) (h1 : (2 : ℚ) ^ e ≤ q)
    (h2 : q < (2 : ℚ) ^ (e + 1)) (he : -126 ≤ e)
    (hm1 : (m : ℚ) - 1 / 2 < q * 2 ^ (23 - e)) (hm2 : q * 2 ^ (23 - e) < (m : ℚ) + 1 / 2) :
    binary32_round q = (m : ℚ) * 2 ^ (e - 23) := by
  have habs : |q| = q := abs_of_nonneg hq
  have hneg : ¬ q < 0 := not_lt.mpr hq
  have hpos : 0 < q := lt_of_lt_of_le (by positivity) h1
  have hlow : ¬ q < (2 : ℚ) ^ (-126 : ℤ) := by
    rw [not_lt]
    exact le_trans (zpow_le_zpow_right₀ (by norm_num) he) h1
  have h3 : e ≤ Int.log 2 q := by
    rw [← Int.zpow_le_iff_le_log (by norm_num) hpos]
    simpa using h1
  have h4 : Int.log 2 q < e + 1 := by
    rw [← Int.lt_zpow_iff_log_lt (by norm_num) hpos]
    simpa using h2
  have hlog : Int.log 2 q = e := by omega
  simp only [binary32_round, habs, hneg, hlow, if_false, hlog, round_ties_even_eq hm1 hm2]

/-- The distance channel written by the `short2` `pack_tsdf` for `d` in
`[-1, 1]` when the product is rounded to single precision: no wrap takes place
and the channel is the floor or the ceiling of `d * 32767`. -/
theorem ShortTsdf.pack_tsdf_binary32_x {d : ℚ} (hlo : -1 ≤ d) (hhi : d ≤ 1) (w : ℚ) :
    (ShortTsdf.pack_tsdf_binary32 d w).x = truncToZero (binary32_round (d * 32767)) ∧
      ⌊d * 32767⌋ ≤ truncToZero (binary32_round (d * 32767)) ∧
      truncToZero (binary32_round (d * 32767)) ≤ ⌈d * 32767⌉ ∧
      -32767 ≤ ⌊d * 32767⌋ ∧ ⌈d * 32767⌉ ≤ 32767 := by
  have hp : |d * 32767| ≤ 32767 := by
    rw [abs_le]
    constructor <;> linarith
  have h1 := (binary32_round_bracket hp ⌊d * 32767⌋).1 (Int.floor_le _)
  have h2 := (binary32_round_bracket hp ⌈d * 32767⌉).2 (Int.le_ceil _)
  have h3 := truncToZero_mono h1
  have h4 := truncToZero_mono h2
  rw [truncToZero_intCast] at h3 h4
  have h5 : (-32767 : ℤ) ≤ ⌊d * 32767⌋ := Int.le_floor.mpr (by push_cast; linarith)
  have h6 : ⌈d * 32767⌉ ≤ (32767 : ℤ) := Int.ceil_le.mpr (by push_cast; linarith)
  refine ⟨?_, h3, h4, h5, h6⟩
  simp only [ShortTsdf.pack_tsdf_binary32, make_short2, float2short, ShortTsdf.TSDF_DIVISOR]
  norm_num
  exact wrap16_of_mem_range (by omega) (by omega)

/-! ## Claims -/

/-- C1: intrinsics round trip. For an `Intr` built by the four-argument
constructor with `fx ≠ 0` and `fy ≠ 0`, and any `u v d` with `d ≠ 0`,
`xyz2uvd (uvd2xyz (u, v, d)) = (u, v, d)`. -/
theorem Intr.xyz2uvd_uvd2xyz (fx fy cx cy u v d : ℚ)
    (hfx : fx ≠ 0) (hfy : fy ≠ 0) (hd : d ≠ 0) :
    (Intr.mk4 fx fy cx cy).xyz2uvd3 ((Intr.mk4 fx fy cx cy).uvd2xyz u v d)
      = make_float3 u v d := by
  simp only [Intr.xyz2uvd3, Intr.xyz2uvd, Intr.uvd2xyz, Intr.mk4, make_float3, neg_neg,
    float3.mk.injEq, and_true]
  constructor
  · field_simp
  · field_simp

/-- Witness of C1 at `Intr(500, 500, 320, 240)` and `(u, v, d) = (100, 50, 2)`. -/
theorem Intr.xyz2uvd_uvd2xyz_witness :
    (Intr.mk4 500 500 320 240).xyz2uvd3 ((Intr.mk4 500 500 320 240).uvd2xyz 100 50 2)
      = make_float3 100 50 2 :=
  Intr.xyz2uvd_uvd2xyz 500 500 320 240 100 50 2 (by norm_num) (by norm_num) (by norm_num)

/-- C2: trilinear sampling at a grid point. Called at integer coordinates
`(i, j, k)`, the manual sampler returns exactly the unpacked distance channel
of the voxel stored at `(i, j, k)`. -/
theorem read_tsdf_texture_value_trilinear_at_grid_point {α : Type}
    (unpack_tsdf : α → float2) (t : ℤ → ℤ → ℤ → α) (i j k : ℤ) :
    read_tsdf_texture_value_trilinear unpack_tsdf t (i : ℚ) (j : ℚ) (k : ℚ)
      = (unpack_tsdf (t i j k)).x := by
  rw [read_tsdf_texture_value_trilinear_unfold]
  simp only [lower_corner_intCast, sub_add_cancel]
  push_cast
  ring

/-- C3: the lower corner at an integer coordinate. At `x = 2` the conversion
gives `2`, the sign test sees `sgn 0 = 0`, the correction `-(0 + 1) >> 1`
is `-1`, and the corner used is `1`, one below `floor 2 = 2`; the same happens
at `x = 0` and at `x = -3`. -/
theorem lower_corner_at_integer_is_one_below :
    float2int_rd 2 = 2 ∧ sgn (((float2int_rd 2 : ℤ) : ℚ) - 2) = 0 ∧
      lower_corner 2 = 1 ∧ ⌊(2 : ℚ)⌋ = 2 ∧ lower_corner 0 = -1 ∧ lower_corner (-3) = -4 := by
  have h2 : lower_corner (2 : ℚ) = 1 := by
    have h := lower_corner_intCast 2
    norm_num at h
    exact h
  have h0 : lower_corner (0 : ℚ) = -1 := by
    have h := lower_corner_intCast 0
    norm_num at h
    exact h
  have h3 : lower_corner (-3 : ℚ) = -4 := by
    have h := lower_corner_intCast (-3)
    norm_num at h
    exact h
  have hf : ⌊(2 : ℚ)⌋ = 2 := by norm_num
  refine ⟨hf, ?_, h2, hf, h0, h3⟩
  simp only [float2int_rd, hf]
  norm_num [sgn_zero]

/-- C4: negative-coordinate floor. At every coordinate `x` that is not an
integer, negative ones included, the lower corner is `floor x`, so
`x0 ≤ x < x0 + 1`, and the fractional offset `a0 = x - x0` lies strictly
between `0` and `1`. -/
theorem lower_corner_of_not_integer (x : ℚ) (hx : ∀ n : ℤ, (n : ℚ) ≠ x) :
    lower_corner x = ⌊x⌋ ∧ (lower_corner x : ℚ) ≤ x ∧ x < (lower_corner x : ℚ) + 1 ∧
      0 < x - (lower_corner x : ℚ) ∧ x - (lower_corner x : ℚ) < 1 := by
  have hlt : (⌊x⌋ : ℚ) < x := lt_of_le_of_ne (Int.floor_le x) (hx ⌊x⌋)
  have hl : lower_corner x = ⌊x⌋ := lower_corner_of_floor_lt hlt
  have hup : x < (⌊x⌋ : ℚ) + 1 := Int.lt_floor_add_one x
  rw [hl]
  refine ⟨rfl, hlt.le, hup, ?_, ?_⟩ <;> linarith

/-- Witness of C4 at `x = -1/2`: the lower corner is `-1`, not `0`. -/
theorem lower_corner_of_not_integer_witness :
    lower_corner (-1 / 2) = -1 ∧ lower_corner (-1 / 2) ≠ 0 ∧
      0 < (-1 / 2 : ℚ) - (lower_corner (-1 / 2) : ℚ) ∧
      (-1 / 2 : ℚ) - (lower_corner (-1 / 2) : ℚ) < 1 := by
  have hx : ∀ n : ℤ, (n : ℚ) ≠ -1 / 2 := by
    intro n h
    have h2 : (2 * n : ℚ) = -1 := by rw [h]; norm_num
    have h3 : 2 * n = -1 := by exact_mod_cast h2
    omega
  have h := lower_corner_of_not_integer (-1 / 2) hx
  have hf : ⌊(-1 / 2 : ℚ)⌋ = -1 := by
    rw [Int.floor_eq_iff]
    norm_num
  have hl : lower_corner (-1 / 2) = -1 := by rw [h.1, hf]
  refine ⟨hl, ?_, h.2.2.2.1, h.2.2.2.2⟩
  rw [hl]
  decide

/-- C5: linear interpolation along one axis. For integers `i j k` and a
fraction `0 ≤ f ≤ 1`, sampling at `(i + f, j, k)` returns
`(1 - f) * D i j k + f * D (i + 1) j k`, with `D` the unpacked distance
channel; likewise along the y axis and along the z axis. -/
theorem read_tsdf_texture_value_trilinear_along_axis {α : Type}
    (unpack_tsdf : α → float2) (t : ℤ → ℤ → ℤ → α) (i j k : ℤ) (f : ℚ)
    (h0 : 0 ≤ f) (h1 : f ≤ 1) :
    read_tsdf_texture_value_trilinear unpack_tsdf t ((i : ℚ) + f) (j : ℚ) (k : ℚ)
        = (1 - f) * (unpack_tsdf (t i j k)).x + f * (unpack_tsdf (t (i + 1) j k)).x ∧
      read_tsdf_texture_value_trilinear unpack_tsdf t (i : ℚ) ((j : ℚ) + f) (k : ℚ)
        = (1 - f) * (unpack_tsdf (t i j k)).x + f * (unpack_tsdf (t i (j + 1) k)).x ∧
      read_tsdf_texture_value_trilinear unpack_tsdf t (i : ℚ) (j : ℚ) ((k : ℚ) + f)
        = (1 - f) * (unpack_tsdf (t i j k)).x + f * (unpack_tsdf (t i j (k + 1))).x := by
  refine ⟨?_, ?_, ?_⟩
  · have hb := axis_blend (fun n => (unpack_tsdf (t n j k)).x) i f h0 h1
    rw [read_tsdf_texture_value_trilinear_unfold]
    simp only [lower_corner_intCast, sub_add_cancel]
    push_cast
    simp only [] at hb
    linear_combination hb
  · have hb := axis_blend (fun n => (unpack_tsdf (t i n k)).x) j f h0 h1
    rw [read_tsdf_texture_value_trilinear_unfold]
    simp only [lower_corner_intCast, sub_add_cancel]
    push_cast
    simp only [] at hb
    linear_combination hb
  · have hb := axis_blend (fun n => (unpack_tsdf (t i j n)).x) k f h0 h1
    rw [read_tsdf_texture_value_trilinear_unfold]
    simp only [lower_corner_intCast, sub_add_cancel]
    push_cast
    simp only [] at hb
    linear_combination hb

/-- Witness of C5: voxels with distances `1` and `3` adjacent along x,
sampled at their midpoint (`f = 1/2`), return `2`. -/
theorem read_tsdf_texture_value_trilinear_along_axis_witness :
    (0 : ℚ) ≤ 1 / 2 ∧ (1 / 2 : ℚ) ≤ 1 ∧
      read_tsdf_texture_value_trilinear (fun v => v) ramp_grid (1 / 2) 0 0 = 2 := by
  have h := (read_tsdf_texture_value_trilinear_along_axis (fun v => v) ramp_grid 0 0 0 (1 / 2)
    (by norm_num) (by norm_num)).1
  refine ⟨by norm_num, by norm_num, ?_⟩
  simp only [Int.cast_zero, zero_add] at h
  rw [h]
  norm_num [ramp_grid]

/-- C6, as stated, fails. On the texture with distance `1` at voxel `(0, 0, 0)`
and `0` elsewhere, sampled at `(1/4, 1/4, 1/4)` (lower corner `(0, 0, 0)`,
fractions `1/4`), the code weighs the all-low corner by `(3/4)^3 = 27/64`,
whereas the fraction on every low-index axis would give `(1/4)^3 = 1/64`. -/
theorem spec_axis_weight_counterexample :
    lower_corner (1 / 4) = 0 ∧
      read_tsdf_texture_value_trilinear (fun v => v) (indicator_grid 0 0 0)
        (1 / 4) (1 / 4) (1 / 4) = 27 / 64 ∧
      corner_sum spec_axis_weight (fun v => v) (indicator_grid 0 0 0)
        (1 / 4) (1 / 4) (1 / 4) = 1 / 64 ∧
      read_tsdf_texture_value_trilinear (fun v => v) (indicator_grid 0 0 0)
          (1 / 4) (1 / 4) (1 / 4)
        ≠ corner_sum spec_axis_weight (fun v => v) (indicator_grid 0 0 0)
          (1 / 4) (1 / 4) (1 / 4) := by
  have hA : read_tsdf_texture_value_trilinear (fun v => v) (indicator_grid 0 0 0)
      (1 / 4) (1 / 4) (1 / 4) = 27 / 64 := by
    rw [read_tsdf_texture_value_trilinear_unfold]
    simp only [lower_corner_one_quarter]
    norm_num [indicator_grid]
  have hB : corner_sum spec_axis_weight (fun v => v) (indicator_grid 0 0 0)
      (1 / 4) (1 / 4) (1 / 4) = 1 / 64 := by
    simp only [corner_sum, lower_corner_one_quarter]
    norm_num [indicator_grid, spec_axis_weight, corner_offset]
  refine ⟨lower_corner_one_quarter, hA, hB, ?_⟩
  rw [hA, hB]
  norm_num

/-- C6, amended. With `frac = a0 = x - x0` (resp. `b0`, `c0`), the weight
multiplying each of the eight corner distances is the product over the three
axes of the complement `1 - frac` on every axis where the corner uses the low
index and of the fraction `frac` on every axis where it uses the high index:
the sampler is the flat sum with these weights, and on the indicator texture
of a corner it returns that corner's weight. -/
theorem read_tsdf_texture_value_trilinear_corner_weights :
    (∀ frac : ℚ, axis_weight false frac = 1 - frac ∧ axis_weight true frac = frac) ∧
      (∀ (α : Type) (unpack_tsdf : α → float2) (t : ℤ → ℤ → ℤ → α) (x y z : ℚ),
        read_tsdf_texture_value_trilinear unpack_tsdf t x y z
          = corner_sum axis_weight unpack_tsdf t x y z) ∧
      (∀ (x y z : ℚ) (dx dy dz : Bool),
        read_tsdf_texture_value_trilinear (fun v => v)
            (indicator_grid (lower_corner x + corner_offset dx)
              (lower_corner y + corner_offset dy) (lower_corner z + corner_offset dz)) x y z
          = axis_weight dx (x - lower_corner x) * axis_weight dy (y - lower_corner y)
              * axis_weight dz (z - lower_corner z)) := by
  refine ⟨?_, ?_, ?_⟩
  · intro frac
    simp [axis_weight]
  · intro α unpack_tsdf t x y z
    exact trilinear_eq_corner_sum unpack_tsdf t x y z
  · intro x y z dx dy dz
    exact trilinear_indicator_grid x y z dx dy dz

/-- C7, as stated, fails. At `d = 1/4` the product `d * 32767` is `8191.75`,
which single precision represents exactly; the `short2` `pack_tsdf` stores
`8191`, with the exact product and with the single-precision product alike,
while the nearest integer is `8192`. -/
theorem ShortTsdf.pack_tsdf_round_counterexample :
    (-1 : ℚ) ≤ 1 / 4 ∧ (1 / 4 : ℚ) ≤ 1 ∧
      (ShortTsdf.pack_tsdf (1 / 4) 0).x = 8191 ∧
      round ((1 / 4 : ℚ) * 32767) = 8192 ∧
      (ShortTsdf.pack_tsdf (1 / 4) 0).x ≠ round ((1 / 4 : ℚ) * 32767) ∧
      binary32_round (1 / 4 * 32767) = 1 / 4 * 32767 ∧
      (ShortTsdf.pack_tsdf_binary32 (1 / 4) 0).x = 8191 := by
  have hx : (ShortTsdf.pack_tsdf (1 / 4) 0).x = 8191 := by
    rw [ShortTsdf.pack_tsdf_x (by norm_num) (by norm_num) 0,
      truncToZero_of_nonneg (by norm_num), Int.floor_eq_iff]
    norm_num
  have hr : round ((1 / 4 : ℚ) * 32767) = 8192 := by
    rw [round_eq, Int.floor_eq_iff]
    norm_num
  have hb : binary32_round (1 / 4 * 32767) = 1 / 4 * 32767 := by
    rw [binary32_round_eq 12 16776704 (by norm_num) (by norm_num) (by norm_num) (by norm_num)
      (by norm_num) (by norm_num)]
    norm_num
  have hxb : (ShortTsdf.pack_tsdf_binary32 (1 / 4) 0).x = 8191 := by
    rw [(ShortTsdf.pack_tsdf_binary32_x (by norm_num) (by norm_num) 0).1, hb,
      truncToZero_of_nonneg (by norm_num), Int.floor_eq_iff]
    norm_num
  refine ⟨by norm_num, by norm_num, hx, hr, ?_, hb, hxb⟩
  rw [hx, hr]
  decide

/-- C7, amended. For every distance `d` in `[-1, 1]` and every weight `w`, the
16-bit distance channel produced by the `short2` `pack_tsdf` is the product
`d * 32767` with its fractional part dropped, truncated toward zero, not
rounded to nearest.  In exact arithmetic it is `trunc (d * 32767)`: in
`[-32767, 32767]`, between `0` and `d * 32767`, less than one away from
`d * 32767`.  With the product rounded to single precision, as the program
computes it, it is the truncation of the rounded product: still in
`[-32767, 32767]`, still the floor or the ceiling of `d * 32767` and less than
one away from it, but possibly the integer beyond `d * 32767`. -/
theorem ShortTsdf.pack_tsdf_truncates (d w : ℚ) (hlo : -1 ≤ d) (hhi : d ≤ 1) :
    (ShortTsdf.pack_tsdf d w).x = truncToZero (d * 32767) ∧
      -32767 ≤ (ShortTsdf.pack_tsdf d w).x ∧ (ShortTsdf.pack_tsdf d w).x ≤ 32767 ∧
      (0 ≤ d → 0 ≤ (ShortTsdf.pack_tsdf d w).x ∧
        ((ShortTsdf.pack_tsdf d w).x : ℚ) ≤ d * 32767 ∧
        d * 32767 < ((ShortTsdf.pack_tsdf d w).x : ℚ) + 1) ∧
      (d < 0 → (ShortTsdf.pack_tsdf d w).x ≤ 0 ∧
        d * 32767 ≤ ((ShortTsdf.pack_tsdf d w).x : ℚ) ∧
        ((ShortTsdf.pack_tsdf d w).x : ℚ) < d * 32767 + 1) ∧
      (ShortTsdf.pack_tsdf_binary32 d w).x = truncToZero (binary32_round (d * 32767)) ∧
      -32767 ≤ (ShortTsdf.pack_tsdf_binary32 d w).x ∧
      (ShortTsdf.pack_tsdf_binary32 d w).x ≤ 32767 ∧
      ⌊d * 32767⌋ ≤ (ShortTsdf.pack_tsdf_binary32 d w).x ∧
      (ShortTsdf.pack_tsdf_binary32 d w).x ≤ ⌈d * 32767⌉ ∧
      |((ShortTsdf.pack_tsdf_binary32 d w).x : ℚ) - d * 32767| < 1 := by
  have h1 : -((32767 : ℤ) : ℚ) ≤ d * 32767 := by push_cast; linarith
  have h2 : d * 32767 ≤ ((32767 : ℤ) : ℚ) := by push_cast; linarith
  obtain ⟨h3, h4⟩ := truncToZero_mem_range (d * 32767) 32767 h1 h2
  obtain ⟨hb, hfl, hce, hmin, hmax⟩ := ShortTsdf.pack_tsdf_binary32_x hlo hhi w
  have hfl' : ((⌊d * 32767⌋ : ℤ) : ℚ) ≤ ((truncToZero (binary32_round (d * 32767)) : ℤ) : ℚ) := by
    exact_mod_cast hfl
  have hce' : ((truncToZero (binary32_round (d * 32767)) : ℤ) : ℚ) ≤ ((⌈d * 32767⌉ : ℤ) : ℚ) := by
    exact_mod_cast hce
  have hf := Int.lt_floor_add_one (d * 32767)
  have hc := Int.ceil_lt_add_one (d * 32767)
  rw [ShortTsdf.pack_tsdf_x hlo hhi w, hb]
  refine ⟨rfl, h3, h4, ?_, ?_, rfl, by omega, by omega, hfl, hce, ?_⟩
  · intro hd
    exact (truncToZero_spec (d * 32767)).1 (by linarith)
  · intro hd
    exact (truncToZero_spec (d * 32767)).2 (by linarith)
  · rw [abs_lt]
    constructor <;> linarith

/-- Witness of the amended C7 at `d = 0x1.0002p-1 = 32769/65536`, `w = 5`,
where `d * 32767 = 16384 - 2^-16`: exact arithmetic stores `16383`, and the
single-precision product rounds to `16384.0`, stored as `16384`. -/
theorem ShortTsdf.pack_tsdf_truncates_witness :
    (-1 : ℚ) ≤ 32769 / 65536 ∧ (32769 / 65536 : ℚ) ≤ 1 ∧
      (ShortTsdf.pack_tsdf (32769 / 65536) 5).x = 16383 ∧
      binary32_round (32769 / 65536 * 32767) = 16384 ∧
      (ShortTsdf.pack_tsdf_binary32 (32769 / 65536) 5).x = 16384 := by
  have h := ShortTsdf.pack_tsdf_truncates (32769 / 65536) 5 (by norm_num) (by norm_num)
  have hr : binary32_round (32769 / 65536 * 32767) = 16384 := by
    rw [binary32_round_eq 13 16777216 (by norm_num) (by norm_num) (by norm_num) (by norm_num)
      (by norm_num) (by norm_num)]
    norm_num
  refine ⟨by norm_num, by norm_num, ?_, hr, ?_⟩
  · rw [h.1, truncToZero_of_nonneg (by norm_num), Int.floor_eq_iff]
    norm_num
  · rw [h.2.2.2.2.2.1, hr]
    exact truncToZero_intCast 16384

/-- C8: normalized-narrow round-trip bound. For every `d` in `[-1, 1]` and
every weight `w`, `|unpack_tsdf (pack_tsdf d w)).x - d| ≤ 1/32767` under the
`short2` encoding. -/
theorem ShortTsdf.unpack_pack_distance_error (d w : ℚ) (hlo : -1 ≤ d) (hhi : d ≤ 1) :
    |(ShortTsdf.unpack_tsdf (ShortTsdf.pack_tsdf d w)).x - d| ≤ 1 / 32767 := by
  have hx := ShortTsdf.pack_tsdf_x hlo hhi w
  have ht := abs_truncToZero_sub_lt (d * 32767)
  rw [abs_lt] at ht
  simp only [ShortTsdf.unpack_tsdf, make_float2, ShortTsdf.TSDF_INV_DIVISOR, hx]
  rw [abs_le]
  constructor <;> linarith [ht.1, ht.2]

/-- Witness of C8 at `d = 1/4`, `w = 37/10`. -/
theorem ShortTsdf.unpack_pack_distance_error_witness :
    (-1 : ℚ) ≤ 1 / 4 ∧ (1 / 4 : ℚ) ≤ 1 ∧
      |(ShortTsdf.unpack_tsdf (ShortTsdf.pack_tsdf (1 / 4) (37 / 10))).x - 1 / 4|
        ≤ 1 / 32767 :=
  ⟨by norm_num, by norm_num,
    ShortTsdf.unpack_pack_distance_error (1 / 4) (37 / 10) (by norm_num) (by norm_num)⟩

/-- C9: normalized-narrow weight truncation. For every `d` and every weight
`w` whose truncation fits in a signed 16-bit integer, the weight recovered by
`unpack_tsdf (pack_tsdf d w)` is `w` with its fractional part dropped toward
zero, for negative `w` as well as positive: an integer of the sign of `w`,
between `0` and `w`, less than one away from `w`. -/
theorem ShortTsdf.unpack_pack_weight (d w : ℚ)
    (hlo : -32768 ≤ truncToZero w) (hhi : truncToZero w ≤ 32767) :
    (ShortTsdf.unpack_tsdf (ShortTsdf.pack_tsdf d w)).y = (truncToZero w : ℚ) ∧
      (0 ≤ w → 0 ≤ truncToZero w ∧ (truncToZero w : ℚ) ≤ w ∧ w < (truncToZero w : ℚ) + 1) ∧
      (w < 0 → truncToZero w ≤ 0 ∧ w ≤ (truncToZero w : ℚ) ∧ (truncToZero w : ℚ) < w + 1) := by
  refine ⟨?_, (truncToZero_spec w).1, (truncToZero_spec w).2⟩
  simp only [ShortTsdf.unpack_tsdf, ShortTsdf.pack_tsdf, make_float2, make_short2, float2short,
    wrap16_of_mem_range hlo hhi]

/-- Witness of C9: `w = 3.7` is recovered as `3`. -/
theorem ShortTsdf.unpack_pack_weight_witness :
    truncToZero (37 / 10) = 3 ∧
      (ShortTsdf.unpack_tsdf (ShortTsdf.pack_tsdf (1 / 4) (37 / 10))).y = 3 := by
  have ht : truncToZero (37 / 10) = 3 := by
    rw [truncToZero_of_nonneg (by norm_num), Int.floor_eq_iff]
    norm_num
  have h := (ShortTsdf.unpack_pack_weight (1 / 4) (37 / 10)
    (by rw [ht]; decide) (by rw [ht]; decide)).1
  refine ⟨ht, ?_⟩
  rw [h, ht]
  norm_num

/-- C10: wide round trip. Under the `float2` encoding
`unpack_tsdf (pack_tsdf d w) = (d, w)` for all `d` and `w`, and `pack_tsdf`
stores the pair unchanged. -/
theorem FloatTsdf.unpack_pack (d w : ℚ) :
    FloatTsdf.unpack_tsdf (FloatTsdf.pack_tsdf d w) = make_float2 d w ∧
      (FloatTsdf.unpack_tsdf (FloatTsdf.pack_tsdf d w)).x = d ∧
      (FloatTsdf.unpack_tsdf (FloatTsdf.pack_tsdf d w)).y = w ∧
      (FloatTsdf.pack_tsdf d w).x = d ∧ (FloatTsdf.pack_tsdf d w).y = w :=
  ⟨rfl, rfl, rfl, rfl, rfl⟩

/-- C11, as stated, fails. At level index `31` the divisor `1 << 31` is
`INT_MIN = -2147483648`, so `Intr(1, 1, 1, 1)` is rescaled to
`fx = -1/2147483648`, not to `1 / 2^31`; at level index `32` the shift has no
defined result. -/
theorem Intr.operator_call_counterexample :
    (Intr.mk4 1 1 1 1).operator_call 31
        = some (Intr.mk4 (-1 / 2147483648) (-1 / 2147483648) (-1 / 2147483648)
            (-1 / 2147483648)) ∧
      (Intr.mk4 1 1 1 1).operator_call 31
        ≠ some (Intr.mk4 (1 / 2 ^ 31) (1 / 2 ^ 31) (1 / 2 ^ 31) (1 / 2 ^ 31)) ∧
      (Intr.mk4 1 1 1 1).operator_call 32 = none := by
  have h31 : (Intr.mk4 1 1 1 1).operator_call 31
      = some (Intr.mk4 (-1 / 2147483648) (-1 / 2147483648) (-1 / 2147483648)
          (-1 / 2147483648)) := by
    simp only [Intr.operator_call, shl_one_31, Intr.mk4]
    norm_num
  refine ⟨h31, ?_, ?_⟩
  · rw [h31]
    simp only [Intr.mk4, ne_eq, Option.some.injEq, Intr.mk.injEq, not_and]
    intro h
    norm_num at h
  · simp only [Intr.operator_call, shl_one_32]

/-- C11, amended. For every level index `L` with `0 ≤ L ≤ 30` and every
`Intr` built by the four-argument constructor, `operator()(L)` returns an
`Intr` whose `fx, fy, cx, cy` are the originals divided by `2^L` and whose
`fx_inv, fy_inv` are the reciprocals of the rescaled `fx, fy`. -/
theorem Intr.operator_call_rescales (fx fy cx cy : ℚ) (L : ℕ) (hL : L ≤ 30) :
    (Intr.mk4 fx fy cx cy).operator_call (L : ℤ)
      = some { fx := fx / 2 ^ L, fy := fy / 2 ^ L, cx := cx / 2 ^ L, cy := cy / 2 ^ L,
               fx_inv := 1 / (fx / 2 ^ L), fy_inv := 1 / (fy / 2 ^ L) } := by
  rw [Intr.operator_call_of_le _ hL]
  rfl

/-- Witness of the amended C11 at `Intr(500, 500, 320, 240)` and level `3`. -/
theorem Intr.operator_call_rescales_witness :
    (3 : ℕ) ≤ 30 ∧
      (Intr.mk4 500 500 320 240).operator_call 3
        = some { fx := 125 / 2, fy := 125 / 2, cx := 40, cy := 30,
                 fx_inv := 2 / 125, fy_inv := 2 / 125 } := by
  have h := Intr.operator_call_rescales 500 500 320 240 3 (by norm_num)
  refine ⟨by norm_num, ?_⟩
  rw [Nat.cast_ofNat] at h
  rw [h]
  norm_num

/-- C12: level-1 halving. For every `Intr(fx, fy, cx, cy)`, `operator()(1)`
yields `fx/2, fy/2, cx/2, cy/2` with `fx_inv = 2/fx` and `fy_inv = 2/fy`. -/
theorem Intr.operator_call_one (fx fy cx cy : ℚ) :
    (Intr.mk4 fx fy cx cy).operator_call 1
      = some { fx := fx / 2, fy := fy / 2, cx := cx / 2, cy := cy / 2,
               fx_inv := 2 / fx, fy_inv := 2 / fy } := by
  have h := Intr.operator_call_of_le (Intr.mk4 fx fy cx cy) (L := 1) (by norm_num)
  rw [Nat.cast_one] at h
  rw [h]
  simp only [Intr.mk4, pow_one, one_div_div]

/-- Witness of C12: `Intr(500, 500, 320, 240)` at level `1` has `fx = 250`,
`fy = 250`, `cx = 160`, `cy = 120`. -/
theorem Intr.operator_call_one_witness :
    (Intr.mk4 500 500 320 240).operator_call 1
      = some { fx := 250, fy := 250, cx := 160, cy := 120,
               fx_inv := 1 / 250, fy_inv := 1 / 250 } := by
  rw [Intr.operator_call_one 500 500 320 240]
  norm_num

/-- C13: level 0 is the identity. For every `Intr` built by the four-argument
constructor, `operator()(0)` returns an `Intr` equal to the original in all
six fields. -/
theorem Intr.operator_call_zero (fx fy cx cy : ℚ) :
    (Intr.mk4 fx fy cx cy).operator_call 0 = some (Intr.mk4 fx fy cx cy) := by
  have h := Intr.operator_call_of_le (Intr.mk4 fx fy cx cy) (L := 0) (by norm_num)
  rw [Nat.cast_zero] at h
  rw [h]
  simp only [Intr.mk4, pow_zero, div_one]

/-- C14: projection formula. For an `Intr` built by the four-argument
constructor with `fx ≠ 0` and `fy ≠ 0` and every `u, v, d`,
`uvd2xyz (u, v, d) = (d*(u - cx)/fx, -d*(v - cy)/fy, -d)`; the cached
`fx_inv`, `fy_inv` are `1/fx`, `1/fy`. -/
theorem Intr.uvd2xyz_formula (fx fy cx cy u v d : ℚ) (hfx : fx ≠ 0) (hfy : fy ≠ 0) :
    (Intr.mk4 fx fy cx cy).uvd2xyz u v d
        = make_float3 (d * (u - cx) / fx) (-d * (v - cy) / fy) (-d) ∧
      ((Intr.mk4 fx fy cx cy).uvd2xyz u v d).z = -d ∧
      (Intr.mk4 fx fy cx cy).fx_inv * fx = 1 ∧ (Intr.mk4 fx fy cx cy).fy_inv * fy = 1 := by
  refine ⟨?_, rfl, ?_, ?_⟩
  · simp only [Intr.uvd2xyz, Intr.mk4, make_float3, float3.mk.injEq, and_true]
    constructor <;> ring
  · simp only [Intr.mk4]
    field_simp
  · simp only [Intr.mk4]
    field_simp

/-- Witness of C14 at `Intr(500, 500, 320, 240)` and `(u, v, d) = (420, 140, 2)`:
the point is `(2/5, 2/5, -2)`. -/
theorem Intr.uvd2xyz_formula_witness :
    (Intr.mk4 500 500 320 240).uvd2xyz 420 140 2 = make_float3 (2 / 5) (2 / 5) (-2) := by
  rw [(Intr.uvd2xyz_formula 500 500 320 240 420 140 2 (by norm_num) (by norm_num)).1]
  norm_num [make_float3]

/-- C15: warp-node round trip at zero rotation. For a library with the
properties the specification gives it, a `WarpNode` with `r = (0, 0, 0)` and
any translation `t` takes the `theta == 0` branch of `to_dual_quat` (identity
quaternion, no axis normalisation), and `from_dual_quat` applied to the result,
on any node, leaves `t` unchanged and `r` equal to `(0, 0, 0)`. -/
theorem WarpNode.from_dual_quat_to_dual_quat_zero {Q DQ : Type} (lib : Tbx.Lib Q DQ)
    (hlib : lib.Lawful) (t : Tbx.Vec3) (m : WarpNode) :
    WarpNode.to_dual_quat lib ⟨⟨0, 0, 0⟩, t⟩ = lib.dual_quat lib.quat_identity t ∧
      (m.from_dual_quat lib (WarpNode.to_dual_quat lib ⟨⟨0, 0, 0⟩, t⟩)).t = t ∧
      (m.from_dual_quat lib (WarpNode.to_dual_quat lib ⟨⟨0, 0, 0⟩, t⟩)).r = ⟨0, 0, 0⟩ := by
  have hq := WarpNode.to_dual_quat_zero lib hlib.norm_zero t
  refine ⟨hq, ?_, ?_⟩
  · rw [hq]
    simp only [WarpNode.from_dual_quat, hlib.translation_dual_quat]
  · rw [hq]
    simp only [WarpNode.from_dual_quat, hlib.rotation_dual_quat, hlib.angle_identity,
      Tbx.Vec3.scale, mul_zero]

/-- Witness of C15 on the rational instance of the library: the node with
`r = (0, 0, 0)`, `t = (1, 2, 3)` is returned unchanged. -/
theorem WarpNode.from_dual_quat_to_dual_quat_zero_witness :
    Tbx.ratLib.Lawful ∧
      WarpNode.from_dual_quat Tbx.ratLib ⟨⟨0, 0, 0⟩, ⟨1, 2, 3⟩⟩
          (WarpNode.to_dual_quat Tbx.ratLib ⟨⟨0, 0, 0⟩, ⟨1, 2, 3⟩⟩)
        = ⟨⟨0, 0, 0⟩, ⟨1, 2, 3⟩⟩ := by
  have h := WarpNode.from_dual_quat_to_dual_quat_zero Tbx.ratLib Tbx.ratLib_lawful ⟨1, 2, 3⟩
    ⟨⟨0, 0, 0⟩, ⟨1, 2, 3⟩⟩
  refine ⟨Tbx.ratLib_lawful, ?_⟩
  rw [WarpNode.mk.injEq]
  exact ⟨h.2.2, h.2.1⟩

/-- C17: resource-id registry. Starting from the empty registry,
`is_cuda_pbo_vbo_id_used_push_new rid` returns `false` exactly when `rid` has
not been passed to any earlier call, and `true` otherwise; after any call the
id is marked used, and no id is ever removed. -/
theorem is_cuda_pbo_vbo_id_used_push_new_registry (calls : List ℕ) (rid : ℕ) :
    ((is_cuda_pbo_vbo_id_used_push_new (registry_run [] calls) rid).1 = false ↔ rid ∉ calls) ∧
      ((is_cuda_pbo_vbo_id_used_push_new (registry_run [] calls) rid).1 = true ↔ rid ∈ calls) ∧
      (∀ used : List ℕ, rid ∈ (is_cuda_pbo_vbo_id_used_push_new used rid).2) ∧
      (∀ (used : List ℕ) (x : ℕ), x ∈ used →
        x ∈ (is_cuda_pbo_vbo_id_used_push_new used rid).2) ∧
      (∀ (used more : List ℕ) (x : ℕ), x ∈ used → x ∈ registry_run used more) := by
  have hmem : rid ∈ registry_run [] calls ↔ rid ∈ calls := by
    rw [mem_registry_run]
    simp
  have htrue := (is_cuda_pbo_vbo_id_used_push_new_fst (registry_run [] calls) rid).trans hmem
  refine ⟨?_, htrue, ?_, ?_, ?_⟩
  · rw [← htrue]
    simp
  · intro used
    rw [mem_is_cuda_pbo_vbo_id_used_push_new]
    exact Or.inr rfl
  · intro used x hx
    rw [mem_is_cuda_pbo_vbo_id_used_push_new]
    exact Or.inl hx
  · intro used more x hx
    rw [mem_registry_run]
    exact Or.inl hx

/-- Witness of C17: the first call with `42` returns `false`, a second call
with `42` returns `true`, and a call with the different id `7` returns
`false`. -/
theorem is_cuda_pbo_vbo_id_used_push_new_registry_witness :
    (is_cuda_pbo_vbo_id_used_push_new (registry_run [] []) 42).1 = false ∧
      (is_cuda_pbo_vbo_id_used_push_new (registry_run [] [42]) 42).1 = true ∧
      (is_cuda_pbo_vbo_id_used_push_new (registry_run [] [42, 42]) 7).1 = false := by
  refine ⟨?_, ?_, ?_⟩
  · exact (is_cuda_pbo_vbo_id_used_push_new_registry [] 42).1.mpr (by decide)
  · exact (is_cuda_pbo_vbo_id_used_push_new_registry [42] 42).2.1.mpr (by decide)
  · exact (is_cuda_pbo_vbo_id_used_push_new_registry [42, 42] 7).1.mpr (by decide)

/-- C18: interpolation order does not matter. The value the sampler computes
by blending along z first, then y, then x equals the blend of the same eight
corner distances with the same per-axis weights along x first, then y, then
z, and equals the flat sum over the eight corners of distance times the
product of its three per-axis weights. -/
theorem read_tsdf_texture_value_trilinear_order {α : Type} (unpack_tsdf : α → float2)
    (t : ℤ → ℤ → ℤ → α) (x y z : ℚ) :
    read_tsdf_texture_value_trilinear unpack_tsdf t x y z
        = trilinear_x_then_y_then_z unpack_tsdf t x y z ∧
      read_tsdf_texture_value_trilinear unpack_tsdf t x y z
        = corner_sum axis_weight unpack_tsdf t x y z ∧
      read_tsdf_texture_value_trilinear unpack_tsdf t x y z
        = ((corners.map fun c =>
            corner_distance unpack_tsdf t x y z c * corner_weight x y z c).sum) := by
  refine ⟨?_, trilinear_eq_corner_sum unpack_tsdf t x y z, ?_⟩
  · rw [read_tsdf_texture_value_trilinear_unfold]
    simp only [trilinear_x_then_y_then_z, add_zero]
    ring
  · rw [read_tsdf_texture_value_trilinear_unfold]
    simp only [corners, corner_distance, corner_weight, corner_offset, axis_weight,
      List.map_cons, List.map_nil, List.sum_cons, List.sum_nil, add_zero, if_true, if_false,
      Bool.false_eq_true]
    ring

/-- C19: reverse intrinsics round trip. For an `Intr` built by the
four-argument constructor with `fx ≠ 0` and `fy ≠ 0` and every camera-space
point `(x, y, z)` with `z ≠ 0`, `uvd2xyz (xyz2uvd (x, y, z)) = (x, y, z)`; the
depth of the image is again non-zero, and so is the depth after `uvd2xyz`, so
that with the forward round trip the two maps are mutually inverse away from
zero depth. -/
theorem Intr.uvd2xyz_xyz2uvd (fx fy cx cy x y z : ℚ)
    (hfx : fx ≠ 0) (hfy : fy ≠ 0) (hz : z ≠ 0) :
    (Intr.mk4 fx fy cx cy).uvd2xyz3 ((Intr.mk4 fx fy cx cy).xyz2uvd x y z)
        = make_float3 x y z ∧
      ((Intr.mk4 fx fy cx cy).xyz2uvd x y z).z ≠ 0 ∧
      ((Intr.mk4 fx fy cx cy).uvd2xyz x y z).z ≠ 0 ∧
      (Intr.mk4 fx fy cx cy).xyz2uvd3 ((Intr.mk4 fx fy cx cy).uvd2xyz x y z)
        = make_float3 x y z := by
  have hnz : -z ≠ 0 := neg_ne_zero.mpr hz
  refine ⟨?_, ?_, ?_, ?_⟩
  · simp only [Intr.uvd2xyz3, Intr.uvd2xyz, Intr.xyz2uvd, Intr.mk4, make_float3, neg_neg,
      float3.mk.injEq, and_true]
    constructor
    · field_simp
      ring
    · field_simp
      ring
  · simpa [Intr.xyz2uvd, make_float3] using hz
  · simpa [Intr.uvd2xyz, make_float3] using hz
  · simp only [Intr.xyz2uvd3, Intr.xyz2uvd, Intr.uvd2xyz, Intr.mk4, make_float3, neg_neg,
      float3.mk.injEq, and_true]
    constructor
    · field_simp
    · field_simp

/-- Witness of C19 at `Intr(500, 500, 320, 240)` and the point `(2/5, 2/5, -2)`. -/
theorem Intr.uvd2xyz_xyz2uvd_witness :
    (Intr.mk4 500 500 320 240).uvd2xyz3 ((Intr.mk4 500 500 320 240).xyz2uvd (2 / 5) (2 / 5) (-2))
      = make_float3 (2 / 5) (2 / 5) (-2) :=
  (Intr.uvd2xyz_xyz2uvd 500 500 320 240 (2 / 5) (2 / 5) (-2) (by norm_num) (by norm_num)
    (by norm_num)).1

/-- C20: the trilinear sample is a convex combination. At every sample
coordinate the eight corner weights each lie in `[0, 1]` and sum to `1`, the
sampler is the sum of corner distance times corner weight, the returned value
lies between the minimum and the maximum of the eight corner distances, and a
grid whose distance channel is the constant `c` is sampled as `c`. -/
theorem read_tsdf_texture_value_trilinear_convex {α : Type} (unpack_tsdf : α → float2)
    (t : ℤ → ℤ → ℤ → α) (x y z c : ℚ) (hc : ∀ i j k, (unpack_tsdf (t i j k)).x = c) :
    (∀ q ∈ corners, 0 ≤ corner_weight x y z q ∧ corner_weight x y z q ≤ 1) ∧
      (corners.map (corner_weight x y z)).sum = 1 ∧
      (∀ (β : Type) (u : β → float2) (g : ℤ → ℤ → ℤ → β),
        read_tsdf_texture_value_trilinear u g x y z
            = ((corners.map fun q => corner_distance u g x y z q * corner_weight x y z q).sum) ∧
          corner_min u g x y z ≤ read_tsdf_texture_value_trilinear u g x y z ∧
          read_tsdf_texture_value_trilinear u g x y z ≤ corner_max u g x y z) ∧
      read_tsdf_texture_value_trilinear unpack_tsdf t x y z = c := by
  refine ⟨fun q _ => corner_weight_mem x y z q, corner_weight_sum x y z, ?_, ?_⟩
  · intro β u g
    have hb := trilinear_between u g x y z (corner_min u g x y z) (corner_max u g x y z)
      (fun q hq => foldr_min_le _ _ _ (List.mem_map_of_mem _ hq))
      (fun q hq => le_foldr_max _ _ _ (List.mem_map_of_mem _ hq))
    refine ⟨?_, hb.1, hb.2⟩
    rw [read_tsdf_texture_value_trilinear_unfold]
    simp only [corners, corner_distance, corner_weight, corner_offset, axis_weight,
      List.map_cons, List.map_nil, List.sum_cons, List.sum_nil, add_zero, if_true, if_false,
      Bool.false_eq_true]
    ring
  · have hb := trilinear_between unpack_tsdf t x y z c c
      (fun q _ => by rw [corner_distance, hc])
      (fun q _ => by rw [corner_distance, hc])
    exact le_antisymm hb.2 hb.1

/-- Witness of C20: the grid with the constant voxel `(5/2, 1)` is sampled as
`5/2` at `(1/4, -7/3, 10)`. -/
theorem read_tsdf_texture_value_trilinear_convex_witness :
    read_tsdf_texture_value_trilinear (fun v => v) (fun _ _ _ => (⟨5 / 2, 1⟩ : float2))
      (1 / 4) (-7 / 3) 10 = 5 / 2 :=
  (read_tsdf_texture_value_trilinear_convex (fun v => v) (fun _ _ _ => (⟨5 / 2, 1⟩ : float2))
    (1 / 4) (-7 / 3) 10 (5 / 2) (fun _ _ _ => rfl)).2.2.2

/-- C16: half-packed round trip. Under the half-precision encoding, for every
`d` and `w` in the half-precision normal range (`2^-14 ≤ |·| ≤ 65504`),
`unpack_tsdf (pack_tsdf d w)` recovers both channels within the relative error
`1/2048` of half precision (below `1e-3`), with the distance in the low 16
bits and the weight in the high 16 bits of the 32-bit storage unit. -/
theorem HalfTsdf.unpack_pack_half (d w : ℚ) (hd1 : 1 / 16384 ≤ |d|) (hd2 : |d| ≤ 65504)
    (hw1 : 1 / 16384 ≤ |w|) (hw2 : |w| ≤ 65504) :
    |(HalfTsdf.unpack_tsdf (HalfTsdf.pack_tsdf d w)).x - d| ≤ |d| / 2048 ∧
      |(HalfTsdf.unpack_tsdf (HalfTsdf.pack_tsdf d w)).y - w| ≤ |w| / 2048 ∧
      |d| / 2048 < |d| / 1000 ∧ |w| / 2048 < |w| / 1000 ∧
      HalfTsdf.pack_tsdf d w % 4294967296 % 65536 = HalfTsdf.float2half_rn d ∧
      HalfTsdf.pack_tsdf d w % 4294967296 / 65536 = HalfTsdf.float2half_rn w ∧
      (HalfTsdf.unpack_tsdf (HalfTsdf.pack_tsdf d w)).x
        = HalfTsdf.half2float (HalfTsdf.float2half_rn d) ∧
      (HalfTsdf.unpack_tsdf (HalfTsdf.pack_tsdf d w)).y
        = HalfTsdf.half2float (HalfTsdf.float2half_rn w) := by
  obtain ⟨hde, hd0, hd16⟩ := HalfTsdf.half2float_float2half_rn d hd1 hd2
  obtain ⟨hwe, hw0, hw16⟩ := HalfTsdf.half2float_float2half_rn w hw1 hw2
  have hcast := HalfTsdf.int_as_half2_half2_as_int (HalfTsdf.floats2half2_rn d w)
    hd0 hd16 hw0 hw16
  have hx : (HalfTsdf.unpack_tsdf (HalfTsdf.pack_tsdf d w)).x
      = HalfTsdf.half2float (HalfTsdf.float2half_rn d) := by
    simp only [HalfTsdf.unpack_tsdf, HalfTsdf.pack_tsdf]
    rw [hcast]
    rfl
  have hy : (HalfTsdf.unpack_tsdf (HalfTsdf.pack_tsdf d w)).y
      = HalfTsdf.half2float (HalfTsdf.float2half_rn w) := by
    simp only [HalfTsdf.unpack_tsdf, HalfTsdf.pack_tsdf]
    rw [hcast]
    rfl
  have hdpos : 0 < |d| := lt_of_lt_of_le (by norm_num) hd1
  have hwpos : 0 < |w| := lt_of_lt_of_le (by norm_num) hw1
  have hbits := congrArg half2.x hcast
  have hbits2 := congrArg half2.y hcast
  refine ⟨by rw [hx]; exact hde, by rw [hy]; exact hwe, by linarith, by linarith, ?_, ?_, hx, hy⟩
  · simpa [HalfTsdf.int_as_half2, HalfTsdf.floats2half2_rn, HalfTsdf.pack_tsdf] using hbits
  · simpa [HalfTsdf.int_as_half2, HalfTsdf.floats2half2_rn, HalfTsdf.pack_tsdf] using hbits2

/-- Witness of C16 at `d = 0.123456`, `w = 5.0`: the distance is stored as the
pattern `0x2FE7` in the low 16 bits and the weight as `0x4500` in the high 16
bits, and they are recovered as `2023/16384 = 0.12347...` and `5`. -/
theorem HalfTsdf.unpack_pack_half_witness :
    |(HalfTsdf.unpack_tsdf (HalfTsdf.pack_tsdf (1929 / 15625) 5)).x - 1929 / 15625|
        ≤ |(1929 / 15625 : ℚ)| / 2048 ∧
      HalfTsdf.pack_tsdf (1929 / 15625) 5 = 12263 + 65536 * 17664 ∧
      HalfTsdf.unpack_tsdf (HalfTsdf.pack_tsdf (1929 / 15625) 5) = make_float2 (2023 / 16384) 5 := by
  have habs : |(1929 / 15625 : ℚ)| = 1929 / 15625 := abs_of_pos (by norm_num)
  have habs5 : |(5 : ℚ)| = 5 := abs_of_pos (by norm_num)
  have h := HalfTsdf.unpack_pack_half (1929 / 15625) 5 (by rw [habs]; norm_num)
    (by rw [habs]; norm_num) (by rw [habs5]; norm_num) (by rw [habs5]; norm_num)
  have hd : HalfTsdf.float2half_rn (1929 / 15625) = 12263 := by
    rw [HalfTsdf.float2half_rn_eq (-4) 2023 (by norm_num) (by norm_num) (by norm_num)
      (by norm_num) (by norm_num) (by norm_num) (by norm_num)]
    norm_num
  have hw : HalfTsdf.float2half_rn 5 = 17664 := by
    rw [HalfTsdf.float2half_rn_eq 2 1280 (by norm_num) (by norm_num) (by norm_num)
      (by norm_num) (by norm_num) (by norm_num) (by norm_num)]
    norm_num
  have hvd : HalfTsdf.half2float 12263 = 2023 / 16384 := by
    norm_num [HalfTsdf.half2float]
  have hvw : HalfTsdf.half2float 17664 = 5 := by
    norm_num [HalfTsdf.half2float]
  refine ⟨h.1, ?_, ?_⟩
  · simp only [HalfTsdf.pack_tsdf, HalfTsdf.floats2half2_rn, HalfTsdf.half2_as_int, hd, hw]
    decide
  · have hx := h.2.2.2.2.2.2.1
    have hy := h.2.2.2.2.2.2.2
    rw [hd, hvd] at hx
    rw [hw, hvw] at hy
    cases hu : HalfTsdf.unpack_tsdf (HalfTsdf.pack_tsdf (1929 / 15625) 5) with
    | mk ux uy =>
      rw [hu] at hx hy
      simp only at hx hy
      rw [hx, hy]
      rfl

end dfusion
